import Mathlib

/-!
Verification development for `bin/subnet-calculator.py`.

The script computes, for a base CIDR network and a list of excluded CIDR
networks, the list of maximal CIDR blocks covering the base network minus the
exclusions.  The heart of the script is `calculate_subnet_cutouts`, which

* parses the base network with `ipaddress.ip_network(_, strict=False)`
  (falling back to echoing the raw input string on failure),
* parses each exclusion the same way, silently dropping malformed ones,
* folds each parsed exclusion over a frontier of remaining blocks, replacing a
  block `B` by `B.address_exclude(E)` whenever `E.subnet_of(B)` and keeping it
  unchanged otherwise (including on containment-test errors such as an
  address-family mismatch),
* converts the frontier to strings and sorts it with Python's `list.sort`
  (plain lexicographic string order).

The Lean model below embeds all of that shallowly: a network is a `Net`
(address family version, integer base address, prefix length); the stdlib
operations `subnet_of`, `subnets` and `address_exclude` are translated from
CPython's `ipaddress` module (with recursion fuel `width - prefixlen` in place
of the generator loop, whose descent is bounded by exactly that quantity);
parsing and textual formatting of IPv4/IPv6 are modelled after CPython's
`ipaddress` string routines (decimal prefix lengths; the rarely used
netmask/hostmask spellings of a prefix are not modelled).  Printing to
stdout/stderr and the exit code are modelled by returning the emitted lines
explicitly (`RunResult`).
-/

/-- Address family version (4 or 6), integer network address, prefix length:
the contents of a Python `IPv4Network`/`IPv6Network` value. -/
structure Net where
  version : Nat
  addr : Nat
  plen : Nat
deriving DecidableEq, Repr

namespace Net

/-- Bit width of the address family: 32 for IPv4, 128 for IPv6. -/
def w (n : Net) : Nat := if n.version = 4 then 32 else 128

/-- Number of addresses in the block (`2 ^ (width - prefixlen)`). -/
def size (n : Net) : Nat := 2 ^ (n.w - n.plen)

/-- The set of addresses covered by the block, as an integer interval. -/
def range (n : Net) : Set Nat := Set.Ico n.addr (n.addr + n.size)

/-- Broadcast address (`network_address + size - 1`), as in `ipaddress`. -/
def last (n : Net) : Nat := n.addr + n.size - 1

/-- Well-formedness of a block as produced by the parser: a real address
family, a prefix length within the family width, a prefix-aligned base address
that fits in the family's address space. -/
def Valid (n : Net) : Prop :=
  (n.version = 4 ∨ n.version = 6) ∧ n.plen ≤ n.w ∧
    n.addr % n.size = 0 ∧ n.addr + n.size ≤ 2 ^ n.w

instance (n : Net) : Decidable n.Valid :=
  decidable_of_iff ((n.version = 4 ∨ n.version = 6) ∧ n.plen ≤ n.w ∧
    n.addr % n.size = 0 ∧ n.addr + n.size ≤ 2 ^ n.w) Iff.rfl

/-- CPython `_is_subnet_of(a, b)` (`a.subnet_of(b)` for same-family networks):
`b.network_address <= a.network_address and b.broadcast_address >=
a.broadcast_address`. -/
def subnetOf (a b : Net) : Bool :=
  decide (b.addr ≤ a.addr ∧ a.last ≤ b.last)

/-- CPython `self.subnets()` (with `prefixlen_diff=1`): the two halves of the
block, lower first. -/
def subnets (n : Net) : Net × Net :=
  (⟨n.version, n.addr, n.plen + 1⟩,
   ⟨n.version, n.addr + 2 ^ (n.w - (n.plen + 1)), n.plen + 1⟩)

/-- The other half of the parent block: the unique block of the same prefix
length whose address differs from `n.addr` exactly in the lowest prefix bit. -/
def sibling (n : Net) : Net :=
  if n.addr % (2 * n.size) = 0 then ⟨n.version, n.addr + n.size, n.plen⟩
  else ⟨n.version, n.addr - n.size, n.plen⟩

end Net

/-- Two blocks are siblings when they have the same prefix length and their
addresses differ exactly in the lowest bit of the prefix, i.e. they are the
two halves of one block one prefix length shorter (the lower of the two
addresses being aligned to that doubled block size). -/
def Sibling (a b : Net) : Prop :=
  a.version = b.version ∧ a.plen = b.plen ∧
    ((b.addr = a.addr + a.size ∧ a.addr % (2 * a.size) = 0) ∨
     (a.addr = b.addr + b.size ∧ b.addr % (2 * b.size) = 0))

instance (a b : Net) : Decidable (Sibling a b) := by
  unfold Sibling; exact inferInstance

/-- Decidable statement that the address ranges of two blocks do not
overlap. -/
def disjB (a b : Net) : Prop :=
  a.addr + a.size ≤ b.addr ∨ b.addr + b.size ≤ a.addr

instance (a b : Net) : Decidable (disjB a b) := by
  unfold disjB; exact inferInstance

/-- Loop body of CPython's `BaseNetwork.address_exclude` generator: split
`self` into halves `s1, s2`; if a half equals `other` yield the other half and
stop; otherwise yield the half not containing `other` and recurse into the one
containing it.  The fuel argument stands in for the loop's bounded descent
(each iteration increases the prefix length, which is bounded by the family
width); the final `[]` is the generator's `AssertionError` branch, unreachable
when `other` is a proper subnet of `self`. -/
def addressExcludeGo : Nat → Net → Net → List Net
  | 0, _, _ => []
  | fuel + 1, self, other =>
    let s := Net.subnets self
    if s.1 = other then [s.2]
    else if s.2 = other then [s.1]
    else if Net.subnetOf other s.1 then s.2 :: addressExcludeGo fuel s.1 other
    else if Net.subnetOf other s.2 then s.1 :: addressExcludeGo fuel s.2 other
    else []

/-- CPython `self.address_exclude(other)`, as called by the script (the caller
has already checked `other.subnet_of(self)`): empty for `other == self`,
otherwise the kept halves collected by the split loop. -/
def addressExclude (self other : Net) : List Net :=
  if other = self then [] else addressExcludeGo (self.w - self.plen) self other

/-- One iteration of the inner loop of `calculate_subnet_cutouts` for frontier
block `network`: if `excluded.subnet_of(network)` succeeds, replace `network`
by `network.address_exclude(excluded)`; keep `network` on a negative test and
also when the test raises (`subnet_of` raises `TypeError` on an address-family
mismatch, which the script's bare `except` turns into keeping the block). -/
def step (excluded network : Net) : List Net :=
  if excluded.version = network.version then
    if Net.subnetOf excluded network then addressExclude network excluded
    else [network]
  else [network]

/-- One iteration of the outer loop: rebuild the frontier by processing one
exclusion against every remaining block in order (`new_remaining`). -/
def applyExclusion (remaining : List Net) (excluded : Net) : List Net :=
  match remaining with
  | [] => []
  | b :: rest => step excluded b ++ applyExclusion rest excluded

/-- The frontier after folding all parsed exclusions over the initial frontier
`[main_network]`: the `remaining_networks` value of
`calculate_subnet_cutouts` just before string conversion. -/
def cutoutBlocks (main_network : Net) (excluded_networks : List Net) : List Net :=
  excluded_networks.foldl applyExclusion [main_network]

/-- Union of the address ranges of a list of blocks. -/
def unionRanges (l : List Net) : Set Nat :=
  {x | ∃ b ∈ l, x ∈ b.range}

/-- Decidable test that an exclusion is fully contained in the base block:
same address family and `subnet_of` holds. -/
def containedB (m e : Net) : Bool :=
  e.version == m.version && Net.subnetOf e m

/-- Python `s.split(sep)` for a one-character separator, on code points. -/
def splitOnChar (sep : Char) : List Char → List (List Char)
  | [] => [[]]
  | c :: rest =>
    let r := splitOnChar sep rest
    if c = sep then [] :: r
    else
      match r with
      | h :: t => (c :: h) :: t
      | [] => [[c]]

/-- ASCII decimal digit test (Python `str.isascii() and str.isdigit()` on a
single character). -/
def isDigitChar (c : Char) : Bool := 48 ≤ c.toNat && c.toNat ≤ 57

/-- Value of an ASCII decimal digit string (Python `int(s, 10)`). -/
def digitsVal (l : List Char) : Nat := l.foldl (fun a c => a * 10 + (c.toNat - 48)) 0

/-- CPython `IPv4Address._parse_octet`: nonempty, ASCII digits only, at most 3
characters, no leading zero, value at most 255. -/
def parseOctet (l : List Char) : Option Nat :=
  if l ≠ [] ∧ l.all isDigitChar ∧ l.length ≤ 3 ∧
      (l.length ≤ 1 ∨ l.head? ≠ some '0') ∧ digitsVal l ≤ 255 then
    some (digitsVal l)
  else none

/-- CPython `IPv4Address._ip_int_from_string`: exactly four octets joined by
dots. -/
def parseV4Addr (l : List Char) : Option Nat :=
  match (splitOnChar '.' l).map parseOctet with
  | [some a, some b, some c, some d] => some (((a * 256 + b) * 256 + c) * 256 + d)
  | _ => none

/-- CPython `_prefix_from_prefix_string` for a family of width `wid`: ASCII
digit string (leading zeros tolerated) whose value is at most the family
width.  The alternative netmask/hostmask dotted spellings of a prefix are not
modelled. -/
def parsePlen (wid : Nat) (l : List Char) : Option Nat :=
  if l ≠ [] ∧ l.all isDigitChar ∧ digitsVal l ≤ wid then some (digitsVal l) else none

/-- Effect of CPython's non-strict network constructor on the address: AND
with the netmask `2 ^ wid - 2 ^ (wid - p)`.  Since the netmask is a `wid`-bit
value, the bitwise AND both clears the host bits and truncates the address to
`wid` bits; written arithmetically. -/
def maskAddr (wid p a : Nat) : Nat := a % 2 ^ wid / 2 ^ (wid - p) * 2 ^ (wid - p)

/-- Build the network value of family `v` from a prefix length and a parsed
(unmasked) address, applying the non-strict host-bit masking. -/
def mkNet (v p a : Nat) : Net := ⟨v, maskAddr (if v = 4 then 32 else 128) p a, p⟩

/-- CPython `IPv4Network(s, strict=False)` as a total function: split an
optional `/prefix` part (at most one slash), parse the dotted-quad address and
the prefix length (defaulting to 32), mask the host bits. -/
def parseV4Net (s : String) : Option Net :=
  match splitOnChar '/' s.data with
  | [a] => (parseV4Addr a).map (mkNet 4 32)
  | [a, p] =>
    match parseV4Addr a, parsePlen 32 p with
    | some ip, some pl => some (mkNet 4 pl ip)
    | _, _ => none
  | _ => none

/-- ASCII hexadecimal digit test. -/
def isHexDigitChar (c : Char) : Bool :=
  (48 ≤ c.toNat && c.toNat ≤ 57) || (97 ≤ c.toNat && c.toNat ≤ 102) ||
    (65 ≤ c.toNat && c.toNat ≤ 70)

/-- Value of an ASCII hexadecimal digit. -/
def hexVal (c : Char) : Nat :=
  if c.toNat ≤ 57 then c.toNat - 48 else if c.toNat ≤ 70 then c.toNat - 55
  else c.toNat - 87

/-- Value of an ASCII hexadecimal digit string (Python `int(s, 16)`). -/
def hexDigitsVal (l : List Char) : Nat := l.foldl (fun a c => a * 16 + hexVal c) 0

/-- CPython `IPv6Address._parse_hextet`: nonempty, hex digits only, at most 4
characters. -/
def parseHextet (l : List Char) : Option Nat :=
  if l ≠ [] ∧ l.all isHexDigitChar ∧ l.length ≤ 4 then some (hexDigitsVal l) else none

/-- Python `'%x' % n`: lowercase hexadecimal digits of `n`. -/
def hexStr (n : Nat) : List Char := Nat.toDigits 16 n

/-- Accumulate 16-bit groups into an address (`ip_int <<= 16; ip_int |= h`). -/
def hextetsVal (l : List Nat) : Nat := l.foldl (fun a h => a * 65536 + h) 0

/-- Body of CPython `IPv6Address._ip_int_from_string` after the colon split
and the embedded-IPv4 rewrite: locate the single `::` (an empty inner part),
derive the counts of leading and trailing groups with the boundary
adjustments for `^::` and `::$`, and assemble the 128-bit value. -/
def v6FromParts (parts : List (List Char)) : Option Nat :=
  let inner := (parts.drop 1).dropLast
  if 2 ≤ inner.countP (fun p => p.isEmpty) then none
  else
    match inner.findIdx? (fun p => p.isEmpty) with
    | some j =>
      let n := parts.length
      let hiCnt0 := j + 1
      let loCnt0 := n - (j + 1) - 1
      let hiCnt := if parts.head? = some [] then hiCnt0 - 1 else hiCnt0
      let loCnt := if parts.getLast? = some [] then loCnt0 - 1 else loCnt0
      if parts.head? = some [] ∧ hiCnt ≠ 0 then none
      else if parts.getLast? = some [] ∧ loCnt ≠ 0 then none
      else if 8 ≤ hiCnt + loCnt then none
      else
        match (parts.take hiCnt).mapM parseHextet,
            (parts.drop (n - loCnt)).mapM parseHextet with
        | some hv, some lv =>
          some (hextetsVal hv * 2 ^ (16 * ((8 - (hiCnt + loCnt)) + loCnt)) + hextetsVal lv)
        | _, _ => none
    | none =>
      if parts.length = 8 ∧ parts.head? ≠ some [] ∧ parts.getLast? ≠ some [] then
        (parts.mapM parseHextet).map hextetsVal
      else none

/-- CPython `IPv6Address._ip_int_from_string`: nonempty, at least three and at
most nine colon-separated parts, with an IPv4-style last part rewritten into
two hexadecimal groups.  Scoped addresses (`%zone`) are not modelled. -/
def parseV6Addr (l : List Char) : Option Nat :=
  if l = [] then none
  else
    let parts := splitOnChar ':' l
    if parts.length < 3 then none
    else
      let lastPart := (parts.getLast?).getD []
      let parts2 :=
        if lastPart.contains '.' then
          match parseV4Addr lastPart with
          | some v4 => some (parts.dropLast ++ [hexStr (v4 / 65536), hexStr (v4 % 65536)])
          | none => none
        else some parts
      match parts2 with
      | none => none
      | some ps => if 9 < ps.length then none else v6FromParts ps

/-- CPython `IPv6Network(s, strict=False)` as a total function. -/
def parseV6Net (s : String) : Option Net :=
  match splitOnChar '/' s.data with
  | [a] => (parseV6Addr a).map (mkNet 6 128)
  | [a, p] =>
    match parseV6Addr a, parsePlen 128 p with
    | some ip, some pl => some (mkNet 6 pl ip)
    | _, _ => none
  | _ => none

/-- CPython `ipaddress.ip_network(s, strict=False)`: try IPv4, then IPv6. -/
def ipNetwork (s : String) : Option Net :=
  match parseV4Net s with
  | some n => some n
  | none => parseV6Net s

/-- Python `str(n)` for the decimal octets and prefix lengths. -/
def natStr (n : Nat) : String := toString n

/-- CPython `IPv4Address._string_from_ip_int`: dotted quad. -/
def v4AddrStr (a : Nat) : String :=
  natStr (a / 16777216 % 256) ++ "." ++ natStr (a / 65536 % 256) ++ "." ++
    natStr (a / 256 % 256) ++ "." ++ natStr (a % 256)

/-- The eight 16-bit groups of a 128-bit address, most significant first. -/
def v6Hextets (a : Nat) : List Nat :=
  [a / 2 ^ 112 % 65536, a / 2 ^ 96 % 65536, a / 2 ^ 80 % 65536, a / 2 ^ 64 % 65536,
   a / 2 ^ 48 % 65536, a / 2 ^ 32 % 65536, a / 2 ^ 16 % 65536, a % 65536]

/-- The scan inside CPython `_compress_hextets`: start and length of the
leftmost longest run of zero groups. -/
def bestZeroRun (l : List Nat) : Nat × Nat :=
  let r := l.enum.foldl
    (fun (acc : Nat × Nat × Nat × Nat) (p : Nat × Nat) =>
      let (bs, bl, cs, cl) := acc
      if p.2 = 0 then
        let cs2 := if cl = 0 then p.1 else cs
        let cl2 := cl + 1
        if bl < cl2 then (cs2, cl2, cs2, cl2) else (bs, bl, cs2, cl2)
      else (bs, bl, 0, 0))
    (0, 0, 0, 0)
  (r.1, r.2.1)

/-- CPython `IPv6Address._string_from_ip_int`: lowercase hex groups with the
leftmost longest zero run of length at least two compressed to `::`. -/
def v6AddrStr (a : Nat) : String :=
  let hs := v6Hextets a
  let strs := hs.map (fun h => String.mk (hexStr h))
  let br := bestZeroRun hs
  if 1 < br.2 then
    let strs1 := if br.1 + br.2 = strs.length then strs ++ [""] else strs
    let strs2 := strs1.take br.1 ++ [""] ++ strs1.drop (br.1 + br.2)
    let strs3 := if br.1 = 0 then "" :: strs2 else strs2
    String.intercalate ":" strs3
  else String.intercalate ":" strs

/-- Python `str(net)`: the address in the family's textual form, a slash, and
the decimal prefix length. -/
def netToString (n : Net) : String :=
  (if n.version = 4 then v4AddrStr n.addr else v6AddrStr n.addr) ++ "/" ++ natStr n.plen

/-- Python string comparison: lexicographic on code points, a strict prefix
comparing less than the longer string. -/
def lexLe : List Char → List Char → Bool
  | [], _ => true
  | _ :: _, [] => false
  | a :: as, b :: bs =>
    if a.toNat < b.toNat then true
    else if b.toNat < a.toNat then false
    else lexLe as bs

/-- Python `s1 <= s2` on strings, as a proposition. -/
def strLe (a b : String) : Prop := lexLe a.data b.data = true

instance : DecidableRel strLe := fun a b =>
  decidable_of_iff (lexLe a.data b.data = true) Iff.rfl

/-- Python `list.sort()` on strings: stable ascending sort by `strLe`. -/
def sortStrings (l : List String) : List String := l.insertionSort strLe

/-- Diagnostic line written to the error stream by the fallback branch of
`calculate_subnet_cutouts` (Python prints the exception text after the fixed
message; the model keeps the offending input instead). -/
def errorMessage (network_str : String) : String :=
  "Error calculating cutouts: " ++ network_str

/-- The function `calculate_subnet_cutouts(network_str, exclusions)`.  The
returned pair is (result list, error-stream lines): Python returns the former
and prints the latter.  On a base parse failure the computation aborts, a
diagnostic is emitted and the raw input string is echoed back as the sole
result; malformed exclusions are silently dropped by `filterMap`. -/
def calculate_subnet_cutouts (network_str : String) (exclusions : List String) :
    List String × List String :=
  match ipNetwork network_str with
  | some main_network =>
    let excluded_networks := exclusions.filterMap ipNetwork
    let remaining_networks := cutoutBlocks main_network excluded_networks
    (sortStrings (remaining_networks.map netToString), [])
  | none => ([network_str], [errorMessage network_str])

/-- Usage line printed when the required network argument is missing. -/
def usageMessage : String :=
  "Usage: subnet-calculator.py <network> [exclusion1] [exclusion2] ..."

/-- Observable outcome of a process run: exit status, stdout lines, stderr
lines. -/
structure RunResult where
  exitCode : Nat
  stdout : List String
  stderr : List String
deriving DecidableEq, Repr

/-- The script's `main()` on an argument vector (`sys.argv`, including the
program name): with no network argument it prints usage to the error stream
and exits 1; otherwise it prints each returned cutout on its own line and
exits 0. -/
def mainRun (argv : List String) : RunResult :=
  match argv with
  | _prog :: network :: exclusions =>
    let r := calculate_subnet_cutouts network exclusions
    ⟨0, r.1, r.2⟩
  | _ => ⟨1, [], [usageMessage]⟩

/-- The ordering claimed by the specification for the output: numeric base
address ascending, ties broken by prefix length ascending. -/
def numLe (a b : Net) : Prop :=
  a.addr < b.addr ∨ (a.addr = b.addr ∧ a.plen ≤ b.plen)

instance (a b : Net) : Decidable (numLe a b) := by
  unfold numLe; exact inferInstance

/-- Invariant of the frontier list maintained by the exclusion fold: every
block is well formed, lives in the base block's family and range, and the
blocks are pairwise disjoint and pairwise non-sibling. -/
def GoodFrontier (m : Net) (F : List Net) : Prop :=
  (∀ b ∈ F, b.Valid ∧ b.version = m.version ∧ b.range ⊆ m.range) ∧
  List.Pairwise (fun a b => Disjoint a.range b.range) F ∧
  List.Pairwise (fun a b => ¬ Sibling a b) F

theorem lexLe_total : ∀ (a b : List Char), lexLe a b = true ∨ lexLe b a = true := by
  intro a
  induction a with
  | nil => intro b; left; rfl
  | cons x xs ih =>
    intro b
    cases b with
    | nil => right; rfl
    | cons y ys =>
      by_cases h1 : x.toNat < y.toNat
      · left; simp [lexLe, h1]
      · by_cases h2 : y.toNat < x.toNat
        · right; simp [lexLe, h2]
        · rcases ih ys with h | h
          · left; simp [lexLe, h1, h2, h]
          · right; simp [lexLe, h1, h2, h]

theorem lexLe_trans : ∀ (a b c : List Char),
    lexLe a b = true → lexLe b c = true → lexLe a c = true := by
  intro a
  induction a with
  | nil => intro b c _ _; rfl
  | cons x xs ih =>
    intro b c hab hbc
    cases b with
    | nil => simp [lexLe] at hab
    | cons y ys =>
      cases c with
      | nil => simp [lexLe] at hbc
      | cons z zs =>
        simp only [lexLe] at hab hbc ⊢
        rcases Nat.lt_trichotomy x.toNat y.toNat with h1 | h1 | h1
        · rcases Nat.lt_trichotomy y.toNat z.toNat with h2 | h2 | h2
          · rw [if_pos (by omega)]
          · rw [if_pos (by omega)]
          · rw [if_neg (by omega), if_pos (by omega)] at hbc
            simp at hbc
        · rcases Nat.lt_trichotomy y.toNat z.toNat with h2 | h2 | h2
          · rw [if_pos (by omega)]
          · rw [if_neg (by omega), if_neg (by omega)] at hab
            rw [if_neg (by omega), if_neg (by omega)] at hbc
            rw [if_neg (by omega), if_neg (by omega)]
            exact ih ys zs hab hbc
          · rw [if_neg (by omega), if_pos (by omega)] at hbc
            simp at hbc
        · rw [if_neg (by omega), if_pos (by omega)] at hab
          simp at hab

instance : IsTotal String strLe := ⟨fun a b => lexLe_total a.data b.data⟩

instance : IsTrans String strLe := ⟨fun a b c => lexLe_trans a.data b.data c.data⟩

/-- C2, counterexample: for base `10.0.0.0/8` and exclusion `10.1.0.0/16`
(which parse successfully), the returned list is not sorted by numeric base
address with prefix-length tie-break: `10.128.0.0/9` precedes `10.16.0.0/12`
in the (string-sorted) output. -/
theorem sort_numeric_counterexample :
    ipNetwork "10.0.0.0/8" = some ⟨4, 167772160, 8⟩ ∧
    ¬ List.Sorted numLe
        (((calculate_subnet_cutouts "10.0.0.0/8" ["10.1.0.0/16"]).1).filterMap ipNetwork) := by
  decide

/-- C2 (amended): the list returned by `calculate_subnet_cutouts` is sorted
ascending by plain lexicographic string comparison (Python's `list.sort` on
strings), not by numeric address; this ordering rule is deterministic given
the computed blocks. -/
theorem result_sorted_lex (s : String) (es : List String) :
    List.Sorted strLe (calculate_subnet_cutouts s es).1 := by
  unfold calculate_subnet_cutouts
  cases h : ipNetwork s with
  | some m =>
    simp only [sortStrings]
    exact List.sorted_insertionSort strLe _
  | none => simp

/-- C3, counterexample: the two exclusion lists are permutations of each
other, yet the result for base `10.0.0.0/8` contains `10.64.0.0/10` for one
order and not for the other, so the result sets differ. -/
theorem permutation_counterexample :
    List.Perm ["10.0.0.0/10", "10.0.0.0/9"] ["10.0.0.0/9", "10.0.0.0/10"] ∧
    "10.64.0.0/10" ∈ (calculate_subnet_cutouts "10.0.0.0/8" ["10.0.0.0/10", "10.0.0.0/9"]).1 ∧
    "10.64.0.0/10" ∉ (calculate_subnet_cutouts "10.0.0.0/8" ["10.0.0.0/9", "10.0.0.0/10"]).1 := by
  decide

/-- C6: when the base network string fails to parse,
`calculate_subnet_cutouts` returns exactly the raw input string as the only
result, writes a diagnostic to the error stream, and the process still exits
with status 0. -/
theorem base_parse_failure_fallback (s : String) (es : List String) (p : String)
    (h : ipNetwork s = none) :
    (calculate_subnet_cutouts s es).1 = [s] ∧
    (calculate_subnet_cutouts s es).2 ≠ [] ∧
    (mainRun (p :: s :: es)).exitCode = 0 := by
  simp [calculate_subnet_cutouts, mainRun, h]

theorem base_parse_failure_fallback_witness :
    (calculate_subnet_cutouts "not-an-ip" []).1 = ["not-an-ip"] ∧
    (calculate_subnet_cutouts "not-an-ip" []).2 ≠ [] ∧
    (mainRun ["subnet-calculator.py", "not-an-ip"]).exitCode = 0 :=
  base_parse_failure_fallback "not-an-ip" [] "subnet-calculator.py" (by decide)

/-- C7: a malformed exclusion string is dropped silently: the result equals
the result for the same base with that exclusion removed from the list, and
the computation never aborts because of it. -/
theorem malformed_exclusion_dropped (s : String) (b : Net) (e : String)
    (es1 es2 : List String) (hs : ipNetwork s = some b) (he : ipNetwork e = none) :
    calculate_subnet_cutouts s (es1 ++ e :: es2) = calculate_subnet_cutouts s (es1 ++ es2) := by
  unfold calculate_subnet_cutouts
  rw [hs]
  simp [List.filterMap_append, List.filterMap_cons, he]

theorem malformed_exclusion_dropped_witness :
    calculate_subnet_cutouts "10.0.0.0/8" ["garbage", "10.1.0.0/16"] =
      calculate_subnet_cutouts "10.0.0.0/8" ["10.1.0.0/16"] :=
  malformed_exclusion_dropped "10.0.0.0/8" ⟨4, 167772160, 8⟩ "garbage" [] ["10.1.0.0/16"]
    (by decide) (by decide)

/-- C9: invoked with no network argument, the program prints a usage message
to the error stream, produces no output, and exits with status 1. -/
theorem missing_argument_usage (argv : List String) (h : argv.length < 2) :
    mainRun argv = ⟨1, [], [usageMessage]⟩ := by
  match argv with
  | [] => rfl
  | [_] => rfl
  | _ :: _ :: _ => simp at h; omega

theorem missing_argument_usage_witness :
    mainRun ["subnet-calculator.py"] = ⟨1, [], [usageMessage]⟩ :=
  missing_argument_usage ["subnet-calculator.py"] (by decide)

/-- C10: an exclusion exactly equal to a frontier block removes the block
entirely and contributes no replacement blocks; in particular
`calculate_subnet_cutouts` with base `B` and exclusion list `[B]` returns the
empty list and the program prints no output lines. -/
theorem equal_exclusion_removes_block :
    (∀ E B : Net, E = B → step E B = []) ∧
    (∀ (p s : String) (b : Net), ipNetwork s = some b →
      (calculate_subnet_cutouts s [s]).1 = [] ∧ (mainRun [p, s, s]).stdout = []) := by
  have hstep : ∀ B : Net, step B B = [] := by
    intro B
    simp [step, Net.subnetOf, addressExclude]
  refine ⟨fun E B h => h ▸ hstep B, fun p s b hs => ?_⟩
  have h1 : (calculate_subnet_cutouts s [s]).1 = [] := by
    unfold calculate_subnet_cutouts
    rw [hs]
    simp [List.filterMap_cons, hs, cutoutBlocks, applyExclusion, hstep, sortStrings]
  exact ⟨h1, by simpa [mainRun] using h1⟩

theorem equal_exclusion_removes_block_witness :
    step ⟨4, 0, 0⟩ ⟨4, 0, 0⟩ = [] ∧
    ((calculate_subnet_cutouts "10.0.0.0/8" ["10.0.0.0/8"]).1 = [] ∧
      (mainRun ["subnet-calculator.py", "10.0.0.0/8", "10.0.0.0/8"]).stdout = []) :=
  ⟨equal_exclusion_removes_block.1 ⟨4, 0, 0⟩ ⟨4, 0, 0⟩ rfl,
   equal_exclusion_removes_block.2 "subnet-calculator.py" "10.0.0.0/8" ⟨4, 167772160, 8⟩
     (by decide)⟩

theorem Net.size_pos (n : Net) : 0 < n.size := Nat.pos_pow_of_pos _ (by norm_num)

theorem Net.mem_range {n : Net} {x : Nat} :
    x ∈ n.range ↔ n.addr ≤ x ∧ x < n.addr + n.size := Set.mem_Ico

theorem Net.addr_mem_range (n : Net) : n.addr ∈ n.range :=
  Net.mem_range.mpr ⟨le_refl _, by have := n.size_pos; omega⟩

theorem Net.w_eq_of_version {a b : Net} (h : a.version = b.version) : a.w = b.w := by
  unfold Net.w; rw [h]

theorem subnetOf_iff {a b : Net} :
    Net.subnetOf a b = true ↔ b.addr ≤ a.addr ∧ a.addr + a.size ≤ b.addr + b.size := by
  rw [Net.subnetOf, decide_eq_true_iff]
  unfold Net.last
  have := a.size_pos
  have := b.size_pos
  omega

theorem subnetOf_iff_subset {a b : Net} :
    Net.subnetOf a b = true ↔ a.range ⊆ b.range := by
  rw [subnetOf_iff]
  unfold Net.range
  rw [Set.Ico_subset_Ico_iff (by have := a.size_pos; omega)]

theorem disjB_iff {a b : Net} : disjB a b ↔ Disjoint a.range b.range := by
  constructor
  · intro h
    rw [Set.disjoint_left]
    intro x hxa hxb
    rw [Net.mem_range] at hxa hxb
    rcases h with h | h <;> omega
  · intro h
    by_contra hc
    unfold disjB at hc
    push_neg at hc
    have hx : max a.addr b.addr ∈ a.range ∧ max a.addr b.addr ∈ b.range := by
      rw [Net.mem_range, Net.mem_range]
      have := a.size_pos
      have := b.size_pos
      omega
    exact Set.disjoint_left.mp h hx.1 hx.2

theorem aligned_subset {k1 k2 a1 a2 x : Nat} (hk : k1 ≤ k2)
    (h1 : a1 % 2 ^ k1 = 0) (h2 : a2 % 2 ^ k2 = 0)
    (hx1 : a1 ≤ x) (hx2 : x < a1 + 2 ^ k1) (hx3 : a2 ≤ x) (hx4 : x < a2 + 2 ^ k2) :
    a2 ≤ a1 ∧ a1 + 2 ^ k1 ≤ a2 + 2 ^ k2 := by
  have hd1 : 2 ^ k1 ∣ a1 := Nat.dvd_of_mod_eq_zero h1
  have hd2 : 2 ^ k2 ∣ a2 := Nat.dvd_of_mod_eq_zero h2
  have hdk : (2 : Nat) ^ k1 ∣ 2 ^ k2 := pow_dvd_pow 2 hk
  have hd2' : 2 ^ k1 ∣ a2 := dvd_trans hdk hd2
  have hs1 : 0 < 2 ^ k1 := Nat.pos_pow_of_pos _ (by norm_num)
  have hle : a2 ≤ a1 := by
    by_contra hlt
    push_neg at hlt
    obtain ⟨p, hp⟩ := hd1
    obtain ⟨q, hq⟩ := hd2'
    have hpq : p < q := by
      have : 2 ^ k1 * p < 2 ^ k1 * q := by omega
      exact Nat.lt_of_mul_lt_mul_left this
    have hqp : q < p + 1 := by
      have : 2 ^ k1 * q < 2 ^ k1 * (p + 1) := by
        have hexp : 2 ^ k1 * (p + 1) = 2 ^ k1 * p + 2 ^ k1 := by ring
        omega
      exact Nat.lt_of_mul_lt_mul_left this
    omega
  refine ⟨hle, ?_⟩
  obtain ⟨t, ht⟩ := hdk
  have hdsub : 2 ^ k1 ∣ a1 - a2 := Nat.dvd_sub' hd1 hd2'
  obtain ⟨r, hr⟩ := hdsub
  have hrt : r < t := by
    have hlt : 2 ^ k1 * r < 2 ^ k1 * t := by omega
    exact Nat.lt_of_mul_lt_mul_left hlt
  have hmul : 2 ^ k1 * (r + 1) ≤ 2 ^ k1 * t := Nat.mul_le_mul_left _ hrt
  have hexp : 2 ^ k1 * (r + 1) = 2 ^ k1 * r + 2 ^ k1 := by ring
  omega

theorem range_subset_of_overlap {a b : Net} (ha : a.Valid) (hb : b.Valid)
    (hv : a.version = b.version) (hp : b.plen ≤ a.plen)
    {x : Nat} (hxa : x ∈ a.range) (hxb : x ∈ b.range) : a.range ⊆ b.range := by
  have hw : a.w = b.w := Net.w_eq_of_version hv
  have hk : a.w - a.plen ≤ b.w - b.plen := by
    rw [← hw]; exact Nat.sub_le_sub_left hp _
  rw [Net.mem_range] at hxa hxb
  have h := aligned_subset hk ha.2.2.1 hb.2.2.1 hxa.1 hxa.2 hxb.1 hxb.2
  unfold Net.range
  rw [Set.Ico_subset_Ico_iff (by have := a.size_pos; omega)]
  exact ⟨h.1, h.2⟩

theorem nested_or_disjoint {a b : Net} (ha : a.Valid) (hb : b.Valid)
    (hv : a.version = b.version) :
    Disjoint a.range b.range ∨ a.range ⊆ b.range ∨ b.range ⊆ a.range := by
  by_cases hd : Disjoint a.range b.range
  · exact Or.inl hd
  · rw [Set.not_disjoint_iff] at hd
    obtain ⟨x, hx1, hx2⟩ := hd
    rcases le_total b.plen a.plen with hp | hp
    · exact Or.inr (Or.inl (range_subset_of_overlap ha hb hv hp hx1 hx2))
    · exact Or.inr (Or.inr (range_subset_of_overlap hb ha hv.symm hp hx2 hx1))

theorem Net.range_inj {a b : Net} (ha : a.Valid) (hb : b.Valid)
    (hv : a.version = b.version) (h : a.range = b.range) : a = b := by
  have hw : a.w = b.w := Net.w_eq_of_version hv
  unfold Net.range at h
  rw [Set.Ico_eq_Ico_iff (by have := a.size_pos; omega)] at h
  have hsize : a.size = b.size := by omega
  have hplen : a.plen = b.plen := by
    unfold Net.size at hsize
    rw [hw] at hsize
    have := Nat.pow_right_injective (le_refl 2) hsize
    have h1 := ha.2.1
    have h2 := hb.2.1
    rw [hw] at h1
    omega
  cases a; cases b
  simp_all

theorem size_lt_of_ssubset {a b : Net} (ha : a.Valid) (hb : b.Valid)
    (hv : a.version = b.version) (hsub : a.range ⊆ b.range) (hne : a ≠ b) :
    a.size < b.size ∧ b.plen < a.plen := by
  have hw : a.w = b.w := Net.w_eq_of_version hv
  have hend := (Set.Ico_subset_Ico_iff (by have := a.size_pos; omega)).mp hsub
  have hle : a.size ≤ b.size := by omega
  have hne2 : a.size ≠ b.size := by
    intro hsz
    apply hne
    apply Net.range_inj ha hb hv
    unfold Net.range
    rw [show a.addr = b.addr by omega, hsz]
  have hlt : a.size < b.size := lt_of_le_of_ne hle hne2
  refine ⟨hlt, ?_⟩
  unfold Net.size at hlt
  rw [hw] at hlt
  have hexp : b.w - a.plen < b.w - b.plen := by
    exact (Nat.pow_lt_pow_iff_right (by norm_num)).mp hlt
  omega

theorem mem_unionRanges {l : List Net} {x : Nat} :
    x ∈ unionRanges l ↔ ∃ b ∈ l, x ∈ b.range := Iff.rfl

theorem unionRanges_nil : unionRanges [] = ∅ := by
  ext x; simp [mem_unionRanges]

theorem unionRanges_cons (b : Net) (l : List Net) :
    unionRanges (b :: l) = b.range ∪ unionRanges l := by
  ext x; simp [mem_unionRanges]

theorem unionRanges_append (l1 l2 : List Net) :
    unionRanges (l1 ++ l2) = unionRanges l1 ∪ unionRanges l2 := by
  ext x; simp [mem_unionRanges, or_and_right, exists_or]

theorem size_eq_two_halves {n : Net} (hp : n.plen < n.w) :
    n.size = 2 * 2 ^ (n.w - (n.plen + 1)) := by
  unfold Net.size
  rw [show n.w - n.plen = (n.w - (n.plen + 1)) + 1 by omega, pow_succ]
  ring

theorem subnets_fst_range (n : Net) :
    (Net.subnets n).1.range = Set.Ico n.addr (n.addr + 2 ^ (n.w - (n.plen + 1))) := rfl

theorem subnets_snd_range (n : Net) :
    (Net.subnets n).2.range =
      Set.Ico (n.addr + 2 ^ (n.w - (n.plen + 1)))
        (n.addr + 2 ^ (n.w - (n.plen + 1)) + 2 ^ (n.w - (n.plen + 1))) := rfl

theorem mod_eq_zero_of_dvd {d a : Nat} (h : d ∣ a) : a % d = 0 := by
  obtain ⟨c, rfl⟩ := h
  exact Nat.mul_mod_right d c

theorem subnets_valid_fst {n : Net} (hn : n.Valid) (hp : n.plen < n.w) :
    (Net.subnets n).1.Valid := by
  obtain ⟨hver, _, halign, hbound⟩ := hn
  have hsz := size_eq_two_halves hp
  refine ⟨hver, ?_, ?_, ?_⟩
  · show n.plen + 1 ≤ n.w
    omega
  · show n.addr % 2 ^ (n.w - (n.plen + 1)) = 0
    have hdvd : (2 ^ (n.w - (n.plen + 1)) : Nat) ∣ n.size := ⟨2, by rw [hsz]; ring⟩
    exact mod_eq_zero_of_dvd (dvd_trans hdvd (Nat.dvd_of_mod_eq_zero halign))
  · show n.addr + 2 ^ (n.w - (n.plen + 1)) ≤ 2 ^ n.w
    omega

theorem subnets_valid_snd {n : Net} (hn : n.Valid) (hp : n.plen < n.w) :
    (Net.subnets n).2.Valid := by
  obtain ⟨hver, _, halign, hbound⟩ := hn
  have hsz := size_eq_two_halves hp
  refine ⟨hver, ?_, ?_, ?_⟩
  · show n.plen + 1 ≤ n.w
    omega
  · show (n.addr + 2 ^ (n.w - (n.plen + 1))) % 2 ^ (n.w - (n.plen + 1)) = 0
    rw [Nat.add_mod_right]
    have hdvd : (2 ^ (n.w - (n.plen + 1)) : Nat) ∣ n.size := ⟨2, by rw [hsz]; ring⟩
    exact mod_eq_zero_of_dvd (dvd_trans hdvd (Nat.dvd_of_mod_eq_zero halign))
  · show n.addr + 2 ^ (n.w - (n.plen + 1)) + 2 ^ (n.w - (n.plen + 1)) ≤ 2 ^ n.w
    omega

theorem subnets_range_union {n : Net} (hp : n.plen < n.w) :
    n.range = (Net.subnets n).1.range ∪ (Net.subnets n).2.range := by
  have hsz := size_eq_two_halves hp
  rw [subnets_fst_range, subnets_snd_range]
  unfold Net.range
  ext x
  simp only [Set.mem_Ico, Set.mem_union]
  omega

theorem subnets_range_disjoint (n : Net) :
    Disjoint (Net.subnets n).1.range (Net.subnets n).2.range := by
  rw [subnets_fst_range, subnets_snd_range, Set.disjoint_left]
  intro x hx1 hx2
  simp only [Set.mem_Ico] at hx1 hx2
  omega

theorem subnets_sibling_fst {n : Net} (hn : n.Valid) (hp : n.plen < n.w) :
    (Net.subnets n).1.sibling = (Net.subnets n).2 := by
  have hsz := size_eq_two_halves hp
  have hcond : (Net.subnets n).1.addr % (2 * (Net.subnets n).1.size) = 0 := by
    show n.addr % (2 * 2 ^ (n.w - (n.plen + 1))) = 0
    rw [← hsz]
    exact hn.2.2.1
  unfold Net.sibling
  rw [if_pos hcond]
  rfl

theorem subnets_sibling_snd {n : Net} (hn : n.Valid) (hp : n.plen < n.w) :
    (Net.subnets n).2.sibling = (Net.subnets n).1 := by
  have hsz := size_eq_two_halves hp
  have hpos : (0 : Nat) < 2 ^ (n.w - (n.plen + 1)) := Nat.pos_pow_of_pos _ (by norm_num)
  have hcond : ¬ (Net.subnets n).2.addr % (2 * (Net.subnets n).2.size) = 0 := by
    show ¬ (n.addr + 2 ^ (n.w - (n.plen + 1))) % (2 * 2 ^ (n.w - (n.plen + 1))) = 0
    intro hc
    have hd1 : (2 * 2 ^ (n.w - (n.plen + 1)) : Nat) ∣ n.addr := by
      rw [← hsz]
      exact Nat.dvd_of_mod_eq_zero hn.2.2.1
    have hd2 := Nat.dvd_of_mod_eq_zero hc
    have hd3 : (2 * 2 ^ (n.w - (n.plen + 1)) : Nat) ∣ 2 ^ (n.w - (n.plen + 1)) := by
      have := Nat.dvd_sub' hd2 hd1
      simpa using this
    have := Nat.le_of_dvd hpos hd3
    omega
  unfold Net.sibling
  rw [if_neg hcond]
  show (⟨n.version, n.addr + 2 ^ (n.w - (n.plen + 1)) - 2 ^ (n.w - (n.plen + 1)),
      n.plen + 1⟩ : Net) = (Net.subnets n).1
  rw [Nat.add_sub_cancel]
  rfl

theorem sibling_eq_of_sibling {a b : Net} (h : Sibling a b) : b = a.sibling := by
  obtain ⟨hv, hp, hcase⟩ := h
  have hsize : a.size = b.size := by
    unfold Net.size
    rw [Net.w_eq_of_version hv, hp]
  unfold Net.sibling
  rcases hcase with ⟨h1, h2⟩ | ⟨h1, h2⟩
  · rw [if_pos h2]
    show (⟨b.version, b.addr, b.plen⟩ : Net) = ⟨a.version, a.addr + a.size, a.plen⟩
    simp only [Net.mk.injEq]
    exact ⟨hv.symm, h1, hp.symm⟩
  · rw [if_neg]
    · show (⟨b.version, b.addr, b.plen⟩ : Net) = ⟨a.version, a.addr - a.size, a.plen⟩
      simp only [Net.mk.injEq]
      refine ⟨hv.symm, ?_, hp.symm⟩
      omega
    · intro hc
      rw [h1, hsize] at hc
      have hd1 := Nat.dvd_of_mod_eq_zero h2
      have hd2 := Nat.dvd_of_mod_eq_zero hc
      have hd3 : (2 * b.size) ∣ b.size := by
        have := Nat.dvd_sub' hd2 hd1
        simpa using this
      have h4 := Nat.le_of_dvd b.size_pos hd3
      have h5 := b.size_pos
      omega

theorem addressExcludeGo_succ (fuel : Nat) (self other : Net) :
    addressExcludeGo (fuel + 1) self other =
      if (Net.subnets self).1 = other then [(Net.subnets self).2]
      else if (Net.subnets self).2 = other then [(Net.subnets self).1]
      else if Net.subnetOf other (Net.subnets self).1 then
        (Net.subnets self).2 :: addressExcludeGo fuel (Net.subnets self).1 other
      else if Net.subnetOf other (Net.subnets self).2 then
        (Net.subnets self).1 :: addressExcludeGo fuel (Net.subnets self).2 other
      else [] := rfl

theorem addressExcludeGo_spec (other : Net) (hov : other.Valid) :
    ∀ (fuel : Nat) (self : Net), self.Valid → other.version = self.version →
    other.range ⊆ self.range → other ≠ self → fuel = self.w - self.plen →
    (∀ x ∈ addressExcludeGo fuel self other,
        x.Valid ∧ x.version = self.version ∧ self.plen < x.plen ∧
        x.range ⊆ self.range ∧ Disjoint x.range other.range ∧
        other.range ⊆ x.sibling.range) ∧
    List.Pairwise (fun a b => Disjoint a.range b.range) (addressExcludeGo fuel self other) ∧
    unionRanges (addressExcludeGo fuel self other) = self.range \ other.range := by
  intro fuel
  induction fuel with
  | zero =>
    intro self hself hver hsub hne hfuel
    exfalso
    have hlt := size_lt_of_ssubset hov hself hver hsub hne
    have hsz : self.size = 1 := by
      unfold Net.size
      rw [← hfuel]
      rfl
    have := other.size_pos
    omega
  | succ f ih =>
    intro self hself hver hsub hne hfuel
    have hplt : self.plen < self.w := by omega
    have hv1 := subnets_valid_fst hself hplt
    have hv2 := subnets_valid_snd hself hplt
    have hp1 : (Net.subnets self).1.plen = self.plen + 1 := rfl
    have hp2 : (Net.subnets self).2.plen = self.plen + 1 := rfl
    have hver1 : (Net.subnets self).1.version = self.version := rfl
    have hver2 : (Net.subnets self).2.version = self.version := rfl
    have hw1 : (Net.subnets self).1.w = self.w := rfl
    have hw2 : (Net.subnets self).2.w = self.w := rfl
    have hU := subnets_range_union hplt
    have hD := subnets_range_disjoint self
    have hsib1 := subnets_sibling_fst hself hplt
    have hsib2 := subnets_sibling_snd hself hplt
    have hsub1self : (Net.subnets self).1.range ⊆ self.range := by
      rw [hU]; exact Set.subset_union_left
    have hsub2self : (Net.subnets self).2.range ⊆ self.range := by
      rw [hU]; exact Set.subset_union_right
    rw [addressExcludeGo_succ]
    by_cases h1 : (Net.subnets self).1 = other
    · subst h1
      rw [if_pos rfl]
      refine ⟨?_, ?_, ?_⟩
      · intro x hx
        rw [List.mem_singleton] at hx
        subst hx
        refine ⟨hv2, hver2, by omega, hsub2self, hD.symm, ?_⟩
        rw [hsib2]
      · exact List.pairwise_singleton _ _
      · rw [unionRanges_cons, unionRanges_nil, Set.union_empty, hU]
        ext x
        simp only [Set.mem_union, Set.mem_diff]
        constructor
        · intro hx
          exact ⟨Or.inr hx, fun hx1 => Set.disjoint_left.mp hD hx1 hx⟩
        · rintro ⟨hx | hx, hns⟩
          · exact absurd hx hns
          · exact hx
    · rw [if_neg h1]
      by_cases h2 : (Net.subnets self).2 = other
      · subst h2
        rw [if_pos rfl]
        refine ⟨?_, ?_, ?_⟩
        · intro x hx
          rw [List.mem_singleton] at hx
          subst hx
          refine ⟨hv1, hver1, by omega, hsub1self, hD, ?_⟩
          rw [hsib1]
        · exact List.pairwise_singleton _ _
        · rw [unionRanges_cons, unionRanges_nil, Set.union_empty, hU]
          ext x
          simp only [Set.mem_union, Set.mem_diff]
          constructor
          · intro hx
            exact ⟨Or.inl hx, fun hx2 => Set.disjoint_left.mp hD hx hx2⟩
          · rintro ⟨hx | hx, hns⟩
            · exact hx
            · exact absurd hx hns
      · rw [if_neg h2]
        by_cases h3 : Net.subnetOf other (Net.subnets self).1 = true
        · rw [if_pos h3]
          have hsubo1 : other.range ⊆ (Net.subnets self).1.range := subnetOf_iff_subset.mp h3
          have hDs2o : Disjoint (Net.subnets self).2.range other.range :=
            hD.symm.mono_right hsubo1
          obtain ⟨ihMem, ihPair, ihUnion⟩ :=
            ih (Net.subnets self).1 hv1 (by rw [hver1]; exact hver) hsubo1
              (fun he => h1 (he ▸ rfl)) (by rw [hw1, hp1]; omega)
          refine ⟨?_, ?_, ?_⟩
          · intro x hx
            rw [List.mem_cons] at hx
            rcases hx with hx | hx
            · subst hx
              refine ⟨hv2, hver2, by omega, hsub2self, hDs2o, ?_⟩
              rw [hsib2]
              exact hsubo1
            · obtain ⟨q1, q2, q3, q4, q5, q6⟩ := ihMem x hx
              exact ⟨q1, by rw [q2, hver1], by omega,
                fun y hy => hsub1self (q4 hy), q5, q6⟩
          · rw [List.pairwise_cons]
            refine ⟨fun y hy => ?_, ihPair⟩
            have := (ihMem y hy).2.2.2.1
            exact hD.symm.mono_right this
          · rw [unionRanges_cons, ihUnion, hU]
            ext x
            simp only [Set.mem_union, Set.mem_diff]
            constructor
            · rintro (hx | ⟨hx, hno⟩)
              · exact ⟨Or.inr hx, fun ho => Set.disjoint_left.mp hDs2o hx ho⟩
              · exact ⟨Or.inl hx, hno⟩
            · rintro ⟨hx | hx, hno⟩
              · exact Or.inr ⟨hx, hno⟩
              · exact Or.inl hx
        · rw [if_neg h3]
          by_cases h4 : Net.subnetOf other (Net.subnets self).2 = true
          · rw [if_pos h4]
            have hsubo2 : other.range ⊆ (Net.subnets self).2.range := subnetOf_iff_subset.mp h4
            have hDs1o : Disjoint (Net.subnets self).1.range other.range :=
              hD.mono_right hsubo2
            obtain ⟨ihMem, ihPair, ihUnion⟩ :=
              ih (Net.subnets self).2 hv2 (by rw [hver2]; exact hver) hsubo2
                (fun he => h2 (he ▸ rfl)) (by rw [hw2, hp2]; omega)
            refine ⟨?_, ?_, ?_⟩
            · intro x hx
              rw [List.mem_cons] at hx
              rcases hx with hx | hx
              · subst hx
                refine ⟨hv1, hver1, by omega, hsub1self, hDs1o, ?_⟩
                rw [hsib1]
                exact hsubo2
              · obtain ⟨q1, q2, q3, q4, q5, q6⟩ := ihMem x hx
                exact ⟨q1, by rw [q2, hver2], by omega,
                  fun y hy => hsub2self (q4 hy), q5, q6⟩
            · rw [List.pairwise_cons]
              refine ⟨fun y hy => ?_, ihPair⟩
              have := (ihMem y hy).2.2.2.1
              exact hD.mono_right this
            · rw [unionRanges_cons, ihUnion, hU]
              ext x
              simp only [Set.mem_union, Set.mem_diff]
              constructor
              · rintro (hx | ⟨hx, hno⟩)
                · exact ⟨Or.inl hx, fun ho => Set.disjoint_left.mp hDs1o hx ho⟩
                · exact ⟨Or.inr hx, hno⟩
              · rintro ⟨hx | hx, hno⟩
                · exact Or.inl hx
                · exact Or.inr ⟨hx, hno⟩
          · exfalso
            have hlt := size_lt_of_ssubset hov hself hver hsub hne
            have hmem := hsub other.addr_mem_range
            rw [hU] at hmem
            rcases hmem with hmem | hmem
            · apply h3
              apply subnetOf_iff_subset.mpr
              exact range_subset_of_overlap hov hv1 (by rw [hver1]; exact hver)
                (by rw [hp1]; omega) other.addr_mem_range hmem
            · apply h4
              apply subnetOf_iff_subset.mpr
              exact range_subset_of_overlap hov hv2 (by rw [hver2]; exact hver)
                (by rw [hp2]; omega) other.addr_mem_range hmem

theorem sibling_symm {a b : Net} (h : Sibling a b) : Sibling b a := by
  obtain ⟨hv, hp, hc⟩ := h
  exact ⟨hv.symm, hp.symm, hc.symm⟩

theorem addressExclude_spec {self other : Net} (hself : self.Valid) (hov : other.Valid)
    (hver : other.version = self.version) (hsub : Net.subnetOf other self = true) :
    (∀ x ∈ addressExclude self other,
        x.Valid ∧ x.version = self.version ∧ self.plen < x.plen ∧
        x.range ⊆ self.range ∧ Disjoint x.range other.range ∧
        other.range ⊆ x.sibling.range) ∧
    List.Pairwise (fun a b => Disjoint a.range b.range) (addressExclude self other) ∧
    unionRanges (addressExclude self other) = self.range \ other.range := by
  unfold addressExclude
  by_cases he : other = self
  · rw [if_pos he]
    subst he
    refine ⟨by simp, List.Pairwise.nil, ?_⟩
    rw [unionRanges_nil, Set.diff_self]
  · rw [if_neg he]
    exact addressExcludeGo_spec other hov _ self hself hver (subnetOf_iff_subset.mp hsub) he rfl

theorem step_spec {E B : Net} (hB : B.Valid) (hE : E.Valid) :
    (∀ x ∈ step E B, x.Valid ∧ x.version = B.version ∧ x.range ⊆ B.range ∧
        (x = B ∨ (B.plen < x.plen ∧ Disjoint x.range E.range ∧ E.range ⊆ x.sibling.range))) ∧
    List.Pairwise (fun a b => Disjoint a.range b.range) (step E B) ∧
    List.Pairwise (fun a b => ¬ Sibling a b) (step E B) := by
  unfold step
  by_cases hv : E.version = B.version
  · rw [if_pos hv]
    by_cases hs : Net.subnetOf E B = true
    · rw [if_pos hs]
      obtain ⟨hMem, hPair, _⟩ := addressExclude_spec hB hE hv hs
      refine ⟨?_, hPair, ?_⟩
      · intro x hx
        obtain ⟨q1, q2, q3, q4, q5, q6⟩ := hMem x hx
        exact ⟨q1, q2, q4, Or.inr ⟨q3, q5, q6⟩⟩
      · refine hPair.imp_of_mem ?_
        intro a b ha hb _ hS
        have hba := sibling_eq_of_sibling hS
        have h6a := (hMem a ha).2.2.2.2.2
        have h5b := (hMem b hb).2.2.2.2.1
        rw [← hba] at h6a
        exact Set.disjoint_left.mp h5b (h6a E.addr_mem_range) E.addr_mem_range
    · rw [if_neg hs]
      refine ⟨?_, List.pairwise_singleton _ _, List.pairwise_singleton _ _⟩
      intro x hx
      rw [List.mem_singleton] at hx
      subst hx
      exact ⟨hB, rfl, le_refl _, Or.inl rfl⟩
  · rw [if_neg hv]
    refine ⟨?_, List.pairwise_singleton _ _, List.pairwise_singleton _ _⟩
    intro x hx
    rw [List.mem_singleton] at hx
    subst hx
    exact ⟨hB, rfl, le_refl _, Or.inl rfl⟩

theorem mem_applyExclusion {F : List Net} {E x : Net} :
    x ∈ applyExclusion F E ↔ ∃ B ∈ F, x ∈ step E B := by
  induction F with
  | nil => simp [applyExclusion]
  | cons b rest ih =>
    show x ∈ step E b ++ applyExclusion rest E ↔ _
    rw [List.mem_append, ih]
    simp only [List.mem_cons]
    constructor
    · rintro (hx | ⟨B, hB, hxB⟩)
      · exact ⟨b, Or.inl rfl, hx⟩
      · exact ⟨B, Or.inr hB, hxB⟩
    · rintro ⟨B, hB | hB, hxB⟩
      · exact Or.inl (hB ▸ hxB)
      · exact Or.inr ⟨B, hB, hxB⟩

theorem applyExclusion_disj {F : List Net} {E : Net} (hFv : ∀ b ∈ F, b.Valid) (hE : E.Valid)
    (hF : List.Pairwise (fun a b => Disjoint a.range b.range) F) :
    List.Pairwise (fun a b => Disjoint a.range b.range) (applyExclusion F E) := by
  induction F with
  | nil => exact List.Pairwise.nil
  | cons b rest ih =>
    rw [List.pairwise_cons] at hF
    have hbv := hFv b (List.mem_cons_self b rest)
    have hrv : ∀ z ∈ rest, z.Valid := fun z hz => hFv z (List.mem_cons_of_mem b hz)
    show List.Pairwise _ (step E b ++ applyExclusion rest E)
    rw [List.pairwise_append]
    refine ⟨(step_spec hbv hE).2.1, ih hrv hF.2, ?_⟩
    intro x hx y hy
    obtain ⟨B', hB', hyB'⟩ := mem_applyExclusion.mp hy
    have hxsub := ((step_spec hbv hE).1 x hx).2.2.1
    have hysub := ((step_spec (hrv B' hB') hE).1 y hyB').2.2.1
    exact (hF.1 B' hB').mono hxsub hysub

theorem cross_not_sibling_core {B1 B2 x y E : Net} (hB1 : B1.Valid) (hB2 : B2.Valid)
    (hdisj : Disjoint B1.range B2.range) (hnsib : ¬ Sibling B1 B2) (hE : E.Valid)
    (hx : x ∈ step E B1) (hy : y ∈ step E B2)
    (hvxy : x.version = y.version) (hpxy : x.plen = y.plen)
    (h1 : y.addr = x.addr + x.size) (h2 : x.addr % (2 * x.size) = 0) : False := by
  obtain ⟨hxV, hxver, hxsub, hxcase⟩ := (step_spec hB1 hE).1 x hx
  obtain ⟨hyV, hyver, hysub, hycase⟩ := (step_spec hB2 hE).1 y hy
  have hw : x.w = y.w := Net.w_eq_of_version hvxy
  have hsize : x.size = y.size := by
    unfold Net.size
    rw [hw, hpxy]
  have hpos := x.size_pos
  have h2s : (2 : Nat) ^ ((x.w - x.plen) + 1) = 2 * x.size := by
    unfold Net.size
    rw [pow_succ]
    ring
  have halP : x.addr % 2 ^ ((x.w - x.plen) + 1) = 0 := by
    rw [h2s]
    exact h2
  rcases hxcase with hxB | ⟨hxp, _⟩
  · rcases hycase with hyB | ⟨hyp, _⟩
    · subst hxB
      subst hyB
      exact hnsib ⟨hvxy, hpxy, Or.inl ⟨h1, h2⟩⟩
    · subst hxB
      have hwy : y.w = B2.w := Net.w_eq_of_version hyver
      have hk2 : (x.w - x.plen) + 1 ≤ B2.w - B2.plen := by
        have hyple := hyV.2.1
        rw [hw, hpxy]
        omega
      have hyB2 : y.addr ∈ B2.range := hysub y.addr_mem_range
      rw [Net.mem_range] at hyB2
      have hB2align : B2.addr % 2 ^ (B2.w - B2.plen) = 0 := hB2.2.2.1
      have happ := aligned_subset hk2 halP hB2align
        (show x.addr ≤ y.addr by omega)
        (show y.addr < x.addr + 2 ^ ((x.w - x.plen) + 1) by rw [h2s]; omega)
        hyB2.1 hyB2.2
      have hxinB2 : x.addr ∈ B2.range := by
        rw [Net.mem_range]
        have hp2 : (0 : Nat) < 2 ^ ((x.w - x.plen) + 1) := Nat.pos_pow_of_pos _ (by norm_num)
        constructor
        · exact happ.1
        · show x.addr < B2.addr + B2.size
          omega
      exact Set.disjoint_left.mp hdisj x.addr_mem_range hxinB2
  · have hwx : x.w = B1.w := Net.w_eq_of_version hxver
    have hk1 : (x.w - x.plen) + 1 ≤ B1.w - B1.plen := by
      have hxple := hxV.2.1
      omega
    have hxB1 : x.addr ∈ B1.range := hxsub x.addr_mem_range
    rw [Net.mem_range] at hxB1
    have hB1align : B1.addr % 2 ^ (B1.w - B1.plen) = 0 := hB1.2.2.1
    have hp2 : (0 : Nat) < 2 ^ ((x.w - x.plen) + 1) := Nat.pos_pow_of_pos _ (by norm_num)
    have happ := aligned_subset hk1 halP hB1align
      (le_refl x.addr)
      (show x.addr < x.addr + 2 ^ ((x.w - x.plen) + 1) by omega)
      hxB1.1 hxB1.2
    have hB1size : B1.size = 2 ^ (B1.w - B1.plen) := rfl
    have hyinB1 : y.addr ∈ B1.range := by
      rw [Net.mem_range]
      constructor
      · show B1.addr ≤ y.addr
        omega
      · show y.addr < B1.addr + B1.size
        rw [h2s] at happ
        rw [hB1size]
        omega
    exact Set.disjoint_left.mp hdisj hyinB1 (hysub y.addr_mem_range)

theorem cross_not_sibling {B1 B2 x y E : Net} (hB1 : B1.Valid) (hB2 : B2.Valid)
    (hdisj : Disjoint B1.range B2.range) (hnsib : ¬ Sibling B1 B2) (hE : E.Valid)
    (hx : x ∈ step E B1) (hy : y ∈ step E B2) : ¬ Sibling x y := by
  intro hS
  obtain ⟨hv, hp, hc⟩ := hS
  rcases hc with ⟨h1, h2⟩ | ⟨h1, h2⟩
  · exact cross_not_sibling_core hB1 hB2 hdisj hnsib hE hx hy hv hp h1 h2
  · exact cross_not_sibling_core hB2 hB1 hdisj.symm (fun hs => hnsib (sibling_symm hs)) hE
      hy hx hv.symm hp.symm h1 h2

theorem applyExclusion_nsib {F : List Net} {E : Net} (hE : E.Valid)
    (hFv : ∀ b ∈ F, b.Valid)
    (hdisj : List.Pairwise (fun a b => Disjoint a.range b.range) F)
    (hsib : List.Pairwise (fun a b => ¬ Sibling a b) F) :
    List.Pairwise (fun a b => ¬ Sibling a b) (applyExclusion F E) := by
  induction F with
  | nil => exact List.Pairwise.nil
  | cons b rest ih =>
    rw [List.pairwise_cons] at hdisj hsib
    have hbv := hFv b (List.mem_cons_self b rest)
    have hrv : ∀ z ∈ rest, z.Valid := fun z hz => hFv z (List.mem_cons_of_mem b hz)
    show List.Pairwise _ (step E b ++ applyExclusion rest E)
    rw [List.pairwise_append]
    refine ⟨(step_spec hbv hE).2.2, ih hrv hdisj.2 hsib.2, ?_⟩
    intro x hx y hy
    obtain ⟨B', hB', hyB'⟩ := mem_applyExclusion.mp hy
    exact cross_not_sibling hbv (hrv B' hB') (hdisj.1 B' hB') (hsib.1 B' hB') hE hx hyB'

theorem applyExclusion_good {m : Net} {F : List Net} {E : Net}
    (hE : E.Valid) (hF : GoodFrontier m F) : GoodFrontier m (applyExclusion F E) := by
  obtain ⟨hmem, hdisj, hsib⟩ := hF
  refine ⟨?_, ?_, ?_⟩
  · intro x hx
    obtain ⟨B, hB, hxB⟩ := mem_applyExclusion.mp hx
    obtain ⟨hBv, hBver, hBsub⟩ := hmem B hB
    obtain ⟨q1, q2, q3, _⟩ := (step_spec hBv hE).1 x hxB
    exact ⟨q1, q2.trans hBver, q3.trans hBsub⟩
  · exact applyExclusion_disj (fun b hb => (hmem b hb).1) hE hdisj
  · exact applyExclusion_nsib hE (fun b hb => (hmem b hb).1) hdisj hsib

theorem size_le_of_subset {a b : Net} (h : a.range ⊆ b.range) : a.size ≤ b.size := by
  have := (Set.Ico_subset_Ico_iff (by have := a.size_pos; omega)).mp h
  omega

theorem range_eq_of_subset_of_size_eq {a b : Net} (h : a.range ⊆ b.range)
    (hs : a.size = b.size) : a.range = b.range := by
  have hend := (Set.Ico_subset_Ico_iff (by have := a.size_pos; omega)).mp h
  unfold Net.range
  rw [show a.addr = b.addr by omega, hs]

theorem pow_le_half {a b : Nat} (h : 2 ^ a < 2 * 2 ^ b) : 2 ^ a ≤ 2 ^ b := by
  have h1 : (2 : Nat) ^ a < 2 ^ (b + 1) := by
    rw [pow_succ]
    omega
  have h2 := (Nat.pow_lt_pow_iff_right (by norm_num : 1 < 2)).mp h1
  exact Nat.pow_le_pow_right (by norm_num) (by omega)

theorem subnets_sibling_rel {n : Net} (hn : n.Valid) (hp : n.plen < n.w) :
    Sibling (Net.subnets n).1 (Net.subnets n).2 := by
  refine ⟨rfl, rfl, Or.inl ⟨rfl, ?_⟩⟩
  show n.addr % (2 * 2 ^ (n.w - (n.plen + 1))) = 0
  rw [← size_eq_two_halves hp]
  exact hn.2.2.1

theorem mem_block_or_small {v : Nat} {F : List Net}
    (hmem : ∀ b ∈ F, b.Valid ∧ b.version = v)
    {e : Net} (he : e.Valid) (hv : e.version = v)
    (hsub : e.range ⊆ unionRanges F) :
    (∃ B ∈ F, e.range ⊆ B.range) ∨ e.plen < e.w := by
  obtain ⟨B, hB, hBr⟩ := mem_unionRanges.mp (hsub e.addr_mem_range)
  obtain ⟨hBV, hBver⟩ := hmem B hB
  have hver : e.version = B.version := by rw [hv, hBver]
  rcases nested_or_disjoint he hBV hver with hd | hss | hss
  · exact (Set.disjoint_left.mp hd e.addr_mem_range hBr).elim
  · exact Or.inl ⟨B, hB, hss⟩
  · by_cases heq : B.range = e.range
    · exact Or.inl ⟨B, hB, by rw [heq]⟩
    · right
      have hne : B ≠ e := fun h => heq (by rw [h])
      have hlt := (size_lt_of_ssubset hBV he hver.symm hss hne).1
      have hBpos := B.size_pos
      by_contra hpw
      push_neg at hpw
      have hone : e.size = 1 := by
        unfold Net.size
        rw [Nat.sub_eq_zero_of_le hpw, pow_zero]
      omega

theorem resolve_half {v : Nat} {F : List Net}
    (hmem : ∀ b ∈ F, b.Valid ∧ b.version = v)
    {e ehalf B1 : Net} (heV : e.Valid) (hev : e.version = v) (hhalfV : ehalf.Valid)
    (hhv : ehalf.version = e.version) (hhsub : ehalf.range ⊆ e.range)
    (hsizes : e.size = 2 * ehalf.size)
    (hB1mem : B1 ∈ F) (hsubB1 : ehalf.range ⊆ B1.range) :
    (∃ B ∈ F, e.range ⊆ B.range) ∨ ehalf ∈ F := by
  obtain ⟨hB1V, hB1ver⟩ := hmem B1 hB1mem
  have hver : B1.version = e.version := by rw [hB1ver, hev]
  have hpoint : ehalf.addr ∈ B1.range := hsubB1 ehalf.addr_mem_range
  have hpoint2 : ehalf.addr ∈ e.range := hhsub ehalf.addr_mem_range
  rcases nested_or_disjoint hB1V heV hver with hd | hss | hss
  · exact (Set.disjoint_left.mp hd hpoint hpoint2).elim
  · by_cases heq : B1.range = e.range
    · exact Or.inl ⟨B1, hB1mem, by rw [← heq]⟩
    · have hne : B1 ≠ e := fun h => heq (by rw [h])
      have hlt := (size_lt_of_ssubset hB1V heV hver hss hne).1
      have hle1 : ehalf.size ≤ B1.size := size_le_of_subset hsubB1
      have hle2 : B1.size ≤ ehalf.size := by
        have h1 : B1.size = 2 ^ (B1.w - B1.plen) := rfl
        have h2 : ehalf.size = 2 ^ (ehalf.w - ehalf.plen) := rfl
        rw [h1, h2]
        apply pow_le_half
        rw [← h1, ← h2]
        omega
      have hrangeeq : ehalf.range = B1.range :=
        range_eq_of_subset_of_size_eq hsubB1 (by omega)
      have heqnet : ehalf = B1 :=
        Net.range_inj hhalfV hB1V (by rw [hhv, ← hver]) hrangeeq
      exact Or.inr (heqnet ▸ hB1mem)
  · exact Or.inl ⟨B1, hB1mem, hss⟩

theorem mem_block_of_subset_union_fuel {v : Nat} {F : List Net}
    (hmem : ∀ b ∈ F, b.Valid ∧ b.version = v)
    (_hdisj : List.Pairwise (fun a b => Disjoint a.range b.range) F)
    (hsib : List.Pairwise (fun a b => ¬ Sibling a b) F) :
    ∀ (n : Nat) (e : Net), e.w - e.plen ≤ n → e.Valid → e.version = v →
      e.range ⊆ unionRanges F → ∃ B ∈ F, e.range ⊆ B.range := by
  intro n
  induction n with
  | zero =>
    intro e hn heV hv hsub
    rcases mem_block_or_small hmem heV hv hsub with hfound | hplt
    · exact hfound
    · exfalso
      omega
  | succ n ih =>
    intro e hn heV hv hsub
    rcases mem_block_or_small hmem heV hv hsub with hfound | hplt
    · exact hfound
    · have hv1 := subnets_valid_fst heV hplt
      have hv2 := subnets_valid_snd heV hplt
      have hw1 : (Net.subnets e).1.w = e.w := rfl
      have hw2 : (Net.subnets e).2.w = e.w := rfl
      have hp1 : (Net.subnets e).1.plen = e.plen + 1 := rfl
      have hp2 : (Net.subnets e).2.plen = e.plen + 1 := rfl
      have hver1 : (Net.subnets e).1.version = e.version := rfl
      have hver2 : (Net.subnets e).2.version = e.version := rfl
      have hU := subnets_range_union hplt
      have hsub1e : (Net.subnets e).1.range ⊆ e.range := by
        rw [hU]; exact Set.subset_union_left
      have hsub2e : (Net.subnets e).2.range ⊆ e.range := by
        rw [hU]; exact Set.subset_union_right
      have hs1 : (Net.subnets e).1.size = 2 ^ (e.w - (e.plen + 1)) := rfl
      have hs2 : (Net.subnets e).2.size = 2 ^ (e.w - (e.plen + 1)) := rfl
      have hsz := size_eq_two_halves hplt
      obtain ⟨B1, hB1mem, hsubB1⟩ :=
        ih (Net.subnets e).1 (by rw [hw1, hp1]; omega) hv1 (by rw [hver1, hv])
          (hsub1e.trans hsub)
      obtain ⟨B2, hB2mem, hsubB2⟩ :=
        ih (Net.subnets e).2 (by rw [hw2, hp2]; omega) hv2 (by rw [hver2, hv])
          (hsub2e.trans hsub)
      rcases resolve_half hmem heV hv hv1 hver1 hsub1e (by rw [hs1, hsz]) hB1mem hsubB1 with
        hfound | hE1F
      · exact hfound
      · rcases resolve_half hmem heV hv hv2 hver2 hsub2e (by rw [hs2, hsz]) hB2mem hsubB2 with
          hfound | hE2F
        · exact hfound
        · exfalso
          have hsymm : Symmetric (fun a b : Net => ¬ Sibling a b) :=
            fun a b hab hba => hab (sibling_symm hba)
          have hne12 : (Net.subnets e).1 ≠ (Net.subnets e).2 := by
            intro h
            have := congrArg Net.addr h
            have hpos : (0 : Nat) < 2 ^ (e.w - (e.plen + 1)) := Nat.pos_pow_of_pos _ (by norm_num)
            simp only [Net.subnets] at this
            omega
          exact (hsib.forall hsymm hE1F hE2F hne12) (subnets_sibling_rel heV hplt)

theorem mem_block_of_subset_union {v : Nat} {F : List Net}
    (hmem : ∀ b ∈ F, b.Valid ∧ b.version = v)
    (hdisj : List.Pairwise (fun a b => Disjoint a.range b.range) F)
    (hsib : List.Pairwise (fun a b => ¬ Sibling a b) F)
    {e : Net} (heV : e.Valid) (hv : e.version = v)
    (hsub : e.range ⊆ unionRanges F) : ∃ B ∈ F, e.range ⊆ B.range :=
  mem_block_of_subset_union_fuel hmem hdisj hsib (e.w - e.plen) e (le_refl _) heV hv hsub

theorem step_union {E B : Net} (hB : B.Valid) (hE : E.Valid) (hv : E.version = B.version)
    (hs : Net.subnetOf E B = true) :
    unionRanges (step E B) = B.range \ E.range := by
  unfold step
  rw [if_pos hv, if_pos hs]
  exact (addressExclude_spec hB hE hv hs).2.2

theorem step_keep {E B : Net} (h : ¬ (E.version = B.version ∧ Net.subnetOf E B = true)) :
    step E B = [B] := by
  unfold step
  by_cases hv : E.version = B.version
  · rw [if_pos hv, if_neg (fun hs => h ⟨hv, hs⟩)]
  · rw [if_neg hv]

theorem step_keep_of_disjoint {E B C : Net} (hd : Disjoint C.range B.range)
    (hEC : E.range ⊆ C.range) : step E B = [B] :=
  step_keep fun h =>
    Set.disjoint_left.mp hd (hEC E.addr_mem_range)
      ((subnetOf_iff_subset.mp h.2) E.addr_mem_range)

theorem applyExclusion_keep {F : List Net} {E : Net}
    (h : ∀ B ∈ F, step E B = [B]) : applyExclusion F E = F := by
  induction F with
  | nil => rfl
  | cons b rest ih =>
    show step E b ++ applyExclusion rest E = b :: rest
    rw [h b (List.mem_cons_self b rest), ih (fun B hB => h B (List.mem_cons_of_mem b hB))]
    rfl

theorem applyExclusion_union_contained {F : List Net} {E B0 : Net}
    (hFv : ∀ b ∈ F, b.Valid) (hE : E.Valid)
    (hver : ∀ b ∈ F, E.version = b.version)
    (hdisj : List.Pairwise (fun a b => Disjoint a.range b.range) F)
    (hB0 : B0 ∈ F) (hEsub : E.range ⊆ B0.range) :
    unionRanges (applyExclusion F E) = unionRanges F \ E.range := by
  induction F with
  | nil => cases hB0
  | cons b rest ih =>
    rw [List.pairwise_cons] at hdisj
    have hbv := hFv b (List.mem_cons_self b rest)
    have hrv : ∀ z ∈ rest, z.Valid := fun z hz => hFv z (List.mem_cons_of_mem b hz)
    have hverrest : ∀ z ∈ rest, E.version = z.version :=
      fun z hz => hver z (List.mem_cons_of_mem b hz)
    show unionRanges (step E b ++ applyExclusion rest E) =
      unionRanges (b :: rest) \ E.range
    rw [unionRanges_append, unionRanges_cons]
    rcases List.mem_cons.mp hB0 with hB0b | hB0rest
    · subst hB0b
      have hstep : unionRanges (step E B0) = B0.range \ E.range := by
        by_cases hs : Net.subnetOf E B0 = true
        · exact step_union hbv hE (hver B0 (List.mem_cons_self B0 rest)) hs
        · exact absurd (subnetOf_iff_subset.mpr hEsub) hs
      have hkeep : applyExclusion rest E = rest := by
        apply applyExclusion_keep
        intro B hB
        exact step_keep_of_disjoint (hdisj.1 B hB) hEsub
      have hEdisjrest : ∀ x ∈ unionRanges rest, x ∉ E.range := by
        intro x hx hxe
        obtain ⟨B, hB, hxB⟩ := mem_unionRanges.mp hx
        exact Set.disjoint_left.mp (hdisj.1 B hB) (hEsub hxe) hxB
      rw [hstep, hkeep]
      ext x
      simp only [Set.mem_union, Set.mem_diff]
      constructor
      · rintro (⟨hx, hne⟩ | hx)
        · exact ⟨Or.inl hx, hne⟩
        · exact ⟨Or.inr hx, fun he => hEdisjrest x hx he⟩
      · rintro ⟨hx | hx, hne⟩
        · exact Or.inl ⟨hx, hne⟩
        · exact Or.inr hx
    · have hstepb : step E b = [b] :=
        step_keep_of_disjoint (hdisj.1 B0 hB0rest).symm hEsub
      have hEdisjb : ∀ x ∈ b.range, x ∉ E.range := by
        intro x hx hxe
        exact Set.disjoint_left.mp (hdisj.1 B0 hB0rest) hx (hEsub hxe)
      rw [hstepb, unionRanges_cons, unionRanges_nil, Set.union_empty,
        ih hrv hverrest hdisj.2 hB0rest]
      ext x
      simp only [Set.mem_union, Set.mem_diff]
      constructor
      · rintro (hx | ⟨hx, hne⟩)
        · exact ⟨Or.inl hx, fun he => hEdisjb x hx he⟩
        · exact ⟨Or.inr hx, hne⟩
      · rintro ⟨hx | hx, hne⟩
        · exact Or.inl hx
        · exact Or.inr ⟨hx, hne⟩

theorem foldl_good {m : Net} : ∀ (es F : List Net),
    (∀ e ∈ es, e.Valid) → GoodFrontier m F →
    GoodFrontier m (es.foldl applyExclusion F) := by
  intro es
  induction es with
  | nil => exact fun F _ hF => hF
  | cons e rest ih =>
    intro F hes hF
    show GoodFrontier m (rest.foldl applyExclusion (applyExclusion F e))
    exact ih _ (fun x hx => hes x (List.mem_cons_of_mem e hx))
      (applyExclusion_good (hes e (List.mem_cons_self e rest)) hF)

theorem goodFrontier_base {m : Net} (hm : m.Valid) : GoodFrontier m [m] := by
  refine ⟨?_, List.pairwise_singleton _ _, List.pairwise_singleton _ _⟩
  intro b hb
  rw [List.mem_singleton] at hb
  subst hb
  exact ⟨hm, rfl, subset_rfl⟩

theorem cutoutBlocks_good {m : Net} (hm : m.Valid) {es : List Net}
    (hes : ∀ e ∈ es, e.Valid) : GoodFrontier m (cutoutBlocks m es) :=
  foldl_good es [m] hes (goodFrontier_base hm)

theorem containedB_iff {m e : Net} :
    containedB m e = true ↔ e.version = m.version ∧ Net.subnetOf e m = true := by
  unfold containedB
  rw [Bool.and_eq_true, beq_iff_eq]

theorem foldl_coverage {m : Net} (_hm : m.Valid) :
    ∀ (es F : List Net) (U : Set Nat),
    (∀ e ∈ es, e.Valid) → GoodFrontier m F →
    unionRanges F = m.range \ U →
    List.Pairwise (fun a b => Disjoint a.range b.range) (es.filter (containedB m)) →
    (∀ e ∈ es.filter (containedB m), Disjoint e.range U) →
    unionRanges (es.foldl applyExclusion F) =
      m.range \ (U ∪ unionRanges (es.filter (containedB m))) := by
  intro es
  induction es with
  | nil =>
    intro F U _ _ hFU _ _
    rw [List.filter_nil, unionRanges_nil, Set.union_empty]
    exact hFU
  | cons e rest ih =>
    intro F U hes hF hFU hdisjC hCU
    have heV := hes e (List.mem_cons_self e rest)
    have hrestV : ∀ z ∈ rest, z.Valid := fun z hz => hes z (List.mem_cons_of_mem e hz)
    by_cases hc : containedB m e = true
    · have hfilter : (e :: rest).filter (containedB m) = e :: rest.filter (containedB m) :=
        List.filter_cons_of_pos hc
      obtain ⟨hcv, hcs⟩ := containedB_iff.mp hc
      have hesub : e.range ⊆ m.range := subnetOf_iff_subset.mp hcs
      rw [hfilter] at hdisjC hCU
      rw [List.pairwise_cons] at hdisjC
      have heU : Disjoint e.range U :=
        hCU e (List.mem_cons_self e (rest.filter (containedB m)))
      have hesubF : e.range ⊆ unionRanges F := by
        rw [hFU]
        intro x hx
        exact ⟨hesub hx, fun hxU => Set.disjoint_left.mp heU hx hxU⟩
      obtain ⟨hFmem, hFdisj, hFsib⟩ := hF
      obtain ⟨B0, hB0, hB0sub⟩ := mem_block_of_subset_union (v := m.version)
        (fun b hb => ⟨(hFmem b hb).1, (hFmem b hb).2.1⟩) hFdisj hFsib heV hcv hesubF
      have hnew : unionRanges (applyExclusion F e) = unionRanges F \ e.range :=
        applyExclusion_union_contained (fun b hb => (hFmem b hb).1) heV
          (fun b hb => by rw [hcv, (hFmem b hb).2.1]) hFdisj hB0 hB0sub
      have hFU2 : unionRanges (applyExclusion F e) = m.range \ (U ∪ e.range) := by
        rw [hnew, hFU]
        ext x
        simp only [Set.mem_diff, Set.mem_union]
        tauto
      have hCU2 : ∀ z ∈ rest.filter (containedB m), Disjoint z.range (U ∪ e.range) := by
        intro z hz
        rw [Set.disjoint_union_right]
        exact ⟨hCU z (List.mem_cons_of_mem e hz), (hdisjC.1 z hz).symm⟩
      have hres := ih (applyExclusion F e) (U ∪ e.range) hrestV
        (applyExclusion_good heV ⟨hFmem, hFdisj, hFsib⟩) hFU2 hdisjC.2 hCU2
      show unionRanges (rest.foldl applyExclusion (applyExclusion F e)) = _
      rw [hres, hfilter, unionRanges_cons]
      ext x
      simp only [Set.mem_diff, Set.mem_union]
      tauto
    · have hcf : containedB m e = false := Bool.eq_false_iff.mpr hc
      have hfilter : (e :: rest).filter (containedB m) = rest.filter (containedB m) := by
        rw [List.filter_cons, hcf]
        rfl
      have hkeep : applyExclusion F e = F := by
        apply applyExclusion_keep
        intro B hB
        apply step_keep
        rintro ⟨hv, hs⟩
        obtain ⟨_, hBver, hBsub⟩ := hF.1 B hB
        apply hc
        rw [containedB_iff]
        exact ⟨by rw [hv, hBver],
          subnetOf_iff_subset.mpr ((subnetOf_iff_subset.mp hs).trans hBsub)⟩
      rw [hfilter] at hdisjC hCU
      show unionRanges (rest.foldl applyExclusion (applyExclusion F e)) = _
      rw [hkeep, hfilter]
      exact ih F U hrestV hF hFU hdisjC hCU

theorem mkNet_valid {v p a : Nat} (hv : v = 4 ∨ v = 6)
    (hp : p ≤ if v = 4 then 32 else 128) : (mkNet v p a).Valid := by
  unfold mkNet maskAddr
  have hw : (mkNet v p a).w = if v = 4 then 32 else 128 := rfl
  refine ⟨hv, ?_, ?_, ?_⟩
  · show p ≤ if v = 4 then 32 else 128
    exact hp
  · show (a % 2 ^ (if v = 4 then 32 else 128) / 2 ^ ((if v = 4 then 32 else 128) - p) *
        2 ^ ((if v = 4 then 32 else 128) - p)) % 2 ^ ((if v = 4 then 32 else 128) - p) = 0
    exact Nat.mul_mod_left _ _
  · show a % 2 ^ (if v = 4 then 32 else 128) / 2 ^ ((if v = 4 then 32 else 128) - p) *
        2 ^ ((if v = 4 then 32 else 128) - p) + 2 ^ ((if v = 4 then 32 else 128) - p) ≤
        2 ^ (if v = 4 then 32 else 128)
    set wid := if v = 4 then 32 else 128 with hwid
    set s := (2 : Nat) ^ (wid - p) with hs
    have hspos : 0 < s := Nat.pos_pow_of_pos _ (by norm_num)
    have hdvd : s ∣ 2 ^ wid := pow_dvd_pow 2 (by omega)
    obtain ⟨t, ht⟩ := hdvd
    have hmod : a % 2 ^ wid < 2 ^ wid := Nat.mod_lt _ (Nat.pos_pow_of_pos _ (by norm_num))
    have hq : a % 2 ^ wid / s * s ≤ a % 2 ^ wid := Nat.div_mul_le_self _ _
    have hlt : a % 2 ^ wid / s * s < s * t := by omega
    have hqt : a % 2 ^ wid / s < t := by
      have := Nat.lt_of_mul_lt_mul_left (a := s)
        (show s * (a % 2 ^ wid / s) < s * t by
          rw [Nat.mul_comm s (a % 2 ^ wid / s)]
          exact hlt)
      exact this
    have hle : s * (a % 2 ^ wid / s + 1) ≤ s * t := Nat.mul_le_mul_left _ hqt
    have hexp : s * (a % 2 ^ wid / s + 1) = a % 2 ^ wid / s * s + s := by ring
    omega

theorem parsePlen_le {wid : Nat} {l : List Char} {p : Nat}
    (h : parsePlen wid l = some p) : p ≤ wid := by
  unfold parsePlen at h
  split_ifs at h with hc
  cases h
  exact hc.2.2

theorem parseV4Net_valid {s : String} {m : Net} (h : parseV4Net s = some m) : m.Valid := by
  unfold parseV4Net at h
  split at h
  · rw [Option.map_eq_some'] at h
    obtain ⟨ip, _, hm⟩ := h
    subst hm
    exact mkNet_valid (Or.inl rfl) (by norm_num)
  · split at h
    · cases h
      rename_i hpl
      exact mkNet_valid (Or.inl rfl) (by simpa using parsePlen_le (by assumption))
    · cases h
  · cases h

theorem parseV6Net_valid {s : String} {m : Net} (h : parseV6Net s = some m) : m.Valid := by
  unfold parseV6Net at h
  split at h
  · rw [Option.map_eq_some'] at h
    obtain ⟨ip, _, hm⟩ := h
    subst hm
    exact mkNet_valid (Or.inr rfl) (by norm_num)
  · split at h
    · cases h
      exact mkNet_valid (Or.inr rfl) (by simpa using parsePlen_le (by assumption))
    · cases h
  · cases h

theorem ipNetwork_valid {s : String} {m : Net} (h : ipNetwork s = some m) : m.Valid := by
  unfold ipNetwork at h
  split at h
  · cases h
    exact parseV4Net_valid (by assumption)
  · exact parseV6Net_valid h

/-- C4: for every well-formed base block and list of well-formed exclusions,
the blocks computed by `calculate_subnet_cutouts` are pairwise disjoint, and
pairwise disjointness of the frontier is preserved by each per-exclusion
step. -/
theorem result_pairwise_disjoint :
    (∀ (m : Net) (es : List Net), m.Valid → (∀ e ∈ es, e.Valid) →
      List.Pairwise disjB (cutoutBlocks m es)) ∧
    (∀ (F : List Net) (E : Net), (∀ b ∈ F, b.Valid) → E.Valid →
      List.Pairwise disjB F → List.Pairwise disjB (applyExclusion F E)) := by
  constructor
  · intro m es hm hes
    exact ((cutoutBlocks_good hm hes).2.1).imp fun hd => disjB_iff.mpr hd
  · intro F E hFv hE hF
    exact (applyExclusion_disj hFv hE (hF.imp fun hd => disjB_iff.mp hd)).imp
      fun hd => disjB_iff.mpr hd

theorem result_pairwise_disjoint_witness :
    List.Pairwise disjB (cutoutBlocks ⟨4, 167772160, 8⟩ [⟨4, 167837696, 16⟩]) ∧
    List.Pairwise disjB (applyExclusion [⟨4, 167772160, 8⟩] ⟨4, 167837696, 16⟩) :=
  ⟨result_pairwise_disjoint.1 ⟨4, 167772160, 8⟩ [⟨4, 167837696, 16⟩] (by decide) (by decide),
   result_pairwise_disjoint.2 [⟨4, 167772160, 8⟩] ⟨4, 167837696, 16⟩ (by decide) (by decide)
     (by decide)⟩

/-- C5: no two blocks computed by `calculate_subnet_cutouts` are siblings
(same prefix length, addresses differing only in the lowest prefix bit). -/
theorem result_no_siblings (m : Net) (es : List Net) (hm : m.Valid)
    (hes : ∀ e ∈ es, e.Valid) :
    List.Pairwise (fun a b => ¬ Sibling a b) (cutoutBlocks m es) :=
  (cutoutBlocks_good hm hes).2.2

theorem result_no_siblings_witness :
    List.Pairwise (fun a b => ¬ Sibling a b)
      (cutoutBlocks ⟨4, 167772160, 8⟩ [⟨4, 167837696, 16⟩]) :=
  result_no_siblings ⟨4, 167772160, 8⟩ [⟨4, 167837696, 16⟩] (by decide) (by decide)

/-- C8: an exclusion that is not fully contained in a frontier block (or whose
containment test errors, e.g. on an address-family mismatch) leaves that block
unchanged; and an exclusion disjoint from the base block never changes the
result of the computation. -/
theorem noncontained_exclusion_keeps_block :
    (∀ E B : Net, (E.version ≠ B.version ∨ Net.subnetOf E B = false) → step E B = [B]) ∧
    (∀ (m E : Net) (es1 es2 : List Net), m.Valid → E.Valid → (∀ e ∈ es1, e.Valid) →
      (E.version ≠ m.version ∨ disjB E m) →
      cutoutBlocks m (es1 ++ E :: es2) = cutoutBlocks m (es1 ++ es2)) := by
  constructor
  · intro E B h
    apply step_keep
    rintro ⟨hv, hs⟩
    rcases h with h | h
    · exact h hv
    · rw [hs] at h
      cases h
  · intro m E es1 es2 hm hE hes1 hcond
    have hgood := foldl_good es1 [m] hes1 (goodFrontier_base hm)
    have hnoop : applyExclusion (es1.foldl applyExclusion [m]) E =
        es1.foldl applyExclusion [m] := by
      apply applyExclusion_keep
      intro B hB
      obtain ⟨hBv, hBver, hBsub⟩ := hgood.1 B hB
      apply step_keep
      rintro ⟨hv, hs⟩
      rcases hcond with h | h
      · exact h (by rw [hv, hBver])
      · have hEm : E.addr ∈ m.range := ((subnetOf_iff_subset.mp hs).trans hBsub) E.addr_mem_range
        exact Set.disjoint_left.mp (disjB_iff.mp h) E.addr_mem_range hEm
    unfold cutoutBlocks
    rw [List.foldl_append, List.foldl_append]
    show es2.foldl applyExclusion
        (applyExclusion (es1.foldl applyExclusion [m]) E) = _
    rw [hnoop]

theorem noncontained_exclusion_keeps_block_witness :
    step ⟨4, 3232235520, 24⟩ ⟨4, 167772160, 24⟩ = [⟨4, 167772160, 24⟩] ∧
    cutoutBlocks ⟨4, 167772160, 24⟩ ([] ++ ⟨4, 3232235520, 24⟩ :: []) =
      cutoutBlocks ⟨4, 167772160, 24⟩ ([] ++ []) :=
  ⟨noncontained_exclusion_keeps_block.1 ⟨4, 3232235520, 24⟩ ⟨4, 167772160, 24⟩
     (Or.inr (by decide)),
   noncontained_exclusion_keeps_block.2 ⟨4, 167772160, 24⟩ ⟨4, 3232235520, 24⟩ [] []
     (by decide) (by decide) (by decide) (Or.inr (by decide))⟩

/-- C1, counterexample: with base `10.0.0.0/8` and the exclusion list
`[10.0.0.0/10, 10.0.0.0/9]` (the second nested inside the region left by the
first), the union of the returned blocks is not the base range minus the union
of the contained exclusions: the address `10.64.0.0` is covered by the
returned block `10.64.0.0/10` although it lies inside the contained exclusion
`10.0.0.0/9`. -/
theorem coverage_counterexample :
    ipNetwork "10.0.0.0/8" = some ⟨4, 167772160, 8⟩ ∧
    ¬ (unionRanges (List.filterMap ipNetwork
          (calculate_subnet_cutouts "10.0.0.0/8" ["10.0.0.0/10", "10.0.0.0/9"]).1) =
        Net.range ⟨4, 167772160, 8⟩ \
          unionRanges (((["10.0.0.0/10", "10.0.0.0/9"] : List String).filterMap
            ipNetwork).filter (containedB ⟨4, 167772160, 8⟩))) := by
  refine ⟨by decide, ?_⟩
  intro h
  have hxin : (171966464 : Nat) ∈ unionRanges (List.filterMap ipNetwork
      (calculate_subnet_cutouts "10.0.0.0/8" ["10.0.0.0/10", "10.0.0.0/9"]).1) := by
    rw [mem_unionRanges]
    refine ⟨⟨4, 171966464, 10⟩, by decide, ?_⟩
    rw [Net.mem_range]
    decide
  rw [h] at hxin
  apply hxin.2
  rw [mem_unionRanges]
  refine ⟨⟨4, 167772160, 9⟩, by decide, ?_⟩
  rw [Net.mem_range]
  decide

/-- C1 (amended): for every base network string that parses successfully and
every list of exclusion strings whose parseable exclusions contained in the
base block are pairwise disjoint, the union of the ranges of the computed
blocks equals the range of the (normalized) base block minus the union of the
ranges of those contained exclusions.  (With nested contained exclusions the
equality can fail, see the counterexample.) -/
theorem coverage_of_disjoint_exclusions (s : String) (m : Net) (es : List String)
    (hs : ipNetwork s = some m)
    (hdisj : List.Pairwise disjB ((es.filterMap ipNetwork).filter (containedB m))) :
    unionRanges (cutoutBlocks m (es.filterMap ipNetwork)) =
      m.range \ unionRanges ((es.filterMap ipNetwork).filter (containedB m)) := by
  have hm := ipNetwork_valid hs
  have hes : ∀ e ∈ es.filterMap ipNetwork, e.Valid := by
    intro e he
    rw [List.mem_filterMap] at he
    obtain ⟨t, _, ht⟩ := he
    exact ipNetwork_valid ht
  have hbase : unionRanges [m] = m.range \ (∅ : Set Nat) := by
    rw [unionRanges_cons, unionRanges_nil, Set.union_empty, Set.diff_empty]
  have h := foldl_coverage hm (es.filterMap ipNetwork) [m] ∅ hes (goodFrontier_base hm)
    hbase (hdisj.imp fun hd => disjB_iff.mp hd)
    (fun e _ => Set.disjoint_empty e.range)
  rw [Set.empty_union] at h
  exact h

theorem coverage_of_disjoint_exclusions_witness :
    unionRanges (cutoutBlocks ⟨4, 167772160, 8⟩
        ((["10.1.0.0/16"] : List String).filterMap ipNetwork)) =
      Net.range ⟨4, 167772160, 8⟩ \
        unionRanges (((["10.1.0.0/16"] : List String).filterMap ipNetwork).filter
          (containedB ⟨4, 167772160, 8⟩)) :=
  coverage_of_disjoint_exclusions "10.0.0.0/8" ⟨4, 167772160, 8⟩ ["10.1.0.0/16"]
    (by decide) (by decide)

theorem frontier_mem_subset {v : Nat} {F1 F2 : List Net}
    (h1 : ∀ b ∈ F1, b.Valid ∧ b.version = v)
    (hd1 : List.Pairwise (fun a b => Disjoint a.range b.range) F1)
    (hs1 : List.Pairwise (fun a b => ¬ Sibling a b) F1)
    (h2 : ∀ b ∈ F2, b.Valid ∧ b.version = v)
    (hd2 : List.Pairwise (fun a b => Disjoint a.range b.range) F2)
    (hs2 : List.Pairwise (fun a b => ¬ Sibling a b) F2)
    (hU : unionRanges F1 = unionRanges F2) :
    ∀ b ∈ F1, b ∈ F2 := by
  intro b hb
  obtain ⟨hbV, hbver⟩ := h1 b hb
  have hbsub : b.range ⊆ unionRanges F2 := by
    rw [← hU]
    intro x hx
    exact mem_unionRanges.mpr ⟨b, hb, hx⟩
  obtain ⟨C, hC, hbC⟩ := mem_block_of_subset_union h2 hd2 hs2 hbV hbver hbsub
  obtain ⟨hCV, hCver⟩ := h2 C hC
  have hCsub : C.range ⊆ unionRanges F1 := by
    rw [hU]
    intro x hx
    exact mem_unionRanges.mpr ⟨C, hC, hx⟩
  obtain ⟨b', hb', hCb'⟩ := mem_block_of_subset_union h1 hd1 hs1 hCV hCver hCsub
  by_cases hbb : b = b'
  · subst hbb
    have hre : b.range = C.range := Set.Subset.antisymm hbC hCb'
    have hCb : C = b := Net.range_inj hCV hbV (by rw [hCver, hbver]) hre.symm
    exact hCb ▸ hC
  · have hsymm : Symmetric (fun a b : Net => Disjoint a.range b.range) :=
      fun a b hd => hd.symm
    have hdisjbb := hd1.forall hsymm hb hb' hbb
    exact (Set.disjoint_left.mp hdisjbb b.addr_mem_range
      ((hbC.trans hCb') b.addr_mem_range)).elim

/-- C3 (amended): for a well-formed base block and well-formed exclusions
whose members contained in the base are pairwise disjoint, permuting the
exclusion list yields the same set of computed blocks.  (With nested
exclusions the result set can depend on the order, see the counterexample.) -/
theorem permutation_invariant_of_disjoint (m : Net) (es1 es2 : List Net)
    (hm : m.Valid) (hes : ∀ e ∈ es1, e.Valid) (hperm : es1.Perm es2)
    (hdisj : List.Pairwise disjB (es1.filter (containedB m))) :
    ∀ b : Net, b ∈ cutoutBlocks m es1 ↔ b ∈ cutoutBlocks m es2 := by
  have hes2 : ∀ e ∈ es2, e.Valid := fun e he => hes e (hperm.mem_iff.mpr he)
  have hg1 := cutoutBlocks_good hm hes
  have hg2 := cutoutBlocks_good hm hes2
  have hfperm : (es1.filter (containedB m)).Perm (es2.filter (containedB m)) :=
    hperm.filter _
  have hsymm : Symmetric disjB := by
    intro a b hd
    unfold disjB at *
    tauto
  have hdisj2 : List.Pairwise disjB (es2.filter (containedB m)) :=
    (hfperm.pairwise_iff (fun {a b} hd => hsymm hd)).mp hdisj
  have hbase : unionRanges [m] = m.range \ (∅ : Set Nat) := by
    rw [unionRanges_cons, unionRanges_nil, Set.union_empty, Set.diff_empty]
  have hcov1 := foldl_coverage hm es1 [m] ∅ hes (goodFrontier_base hm) hbase
    (hdisj.imp fun hd => disjB_iff.mp hd) (fun e _ => Set.disjoint_empty e.range)
  have hcov2 := foldl_coverage hm es2 [m] ∅ hes2 (goodFrontier_base hm) hbase
    (hdisj2.imp fun hd => disjB_iff.mp hd) (fun e _ => Set.disjoint_empty e.range)
  have hUeq : unionRanges (es1.filter (containedB m)) =
      unionRanges (es2.filter (containedB m)) := by
    ext x
    simp only [mem_unionRanges]
    constructor
    · rintro ⟨b, hb, hx⟩
      exact ⟨b, hfperm.subset hb, hx⟩
    · rintro ⟨b, hb, hx⟩
      exact ⟨b, hfperm.symm.subset hb, hx⟩
  have hUU : unionRanges (cutoutBlocks m es1) = unionRanges (cutoutBlocks m es2) := by
    show unionRanges (es1.foldl applyExclusion [m]) = unionRanges (es2.foldl applyExclusion [m])
    rw [hcov1, hcov2, hUeq]
  obtain ⟨hm1, hd1, hs1⟩ := hg1
  obtain ⟨hm2, hd2, hs2⟩ := hg2
  intro b
  constructor
  · exact fun hb => frontier_mem_subset (v := m.version)
      (fun x hx => ⟨(hm1 x hx).1, (hm1 x hx).2.1⟩) hd1 hs1
      (fun x hx => ⟨(hm2 x hx).1, (hm2 x hx).2.1⟩) hd2 hs2 hUU b hb
  · exact fun hb => frontier_mem_subset (v := m.version)
      (fun x hx => ⟨(hm2 x hx).1, (hm2 x hx).2.1⟩) hd2 hs2
      (fun x hx => ⟨(hm1 x hx).1, (hm1 x hx).2.1⟩) hd1 hs1 hUU.symm b hb

theorem permutation_invariant_of_disjoint_witness :
    (⟨4, 167772160, 9⟩ : Net) ∈
        cutoutBlocks ⟨4, 167772160, 8⟩ [⟨4, 167837696, 16⟩, ⟨4, 167903232, 16⟩] ↔
      (⟨4, 167772160, 9⟩ : Net) ∈
        cutoutBlocks ⟨4, 167772160, 8⟩ [⟨4, 167903232, 16⟩, ⟨4, 167837696, 16⟩] :=
  permutation_invariant_of_disjoint ⟨4, 167772160, 8⟩
    [⟨4, 167837696, 16⟩, ⟨4, 167903232, 16⟩] [⟨4, 167903232, 16⟩, ⟨4, 167837696, 16⟩]
    (by decide) (by decide) (by decide) (by decide) ⟨4, 167772160, 9⟩
